import Mathlib

set_option maxRecDepth 40000

/-!
Verification development for the robotools liquid-handling core.

The model below is a shallow embedding of the volume/composition ledger
(`Labware`), the virtual-well resolver for shared reservoirs, the tip-mask
codec, the large-volume split rule and the transfer planner / instruction
emitter.  Volumes and composition fractions are rationals; well addresses
are (virtual row, column) pairs of naturals; fallible operations return
Except values.  Where outputs of the pipeline are observable in the
repository notebooks, the model is checked against those outputs.
-/

namespace Robotools

/-- Kind of a working-volume bound violation. -/
inductive VolErrorKind where
  | overflow
  | underflow
  deriving DecidableEq, Repr

/-- Modelled from the spec: the VolumeOverflowError/VolumeUnderflowError raised
by the ledger, carrying the data the error message names (container name,
violating well, old volume, requested delta and the violated bound), as in the
notebook message
`Too much volume for "24-well plate".C01: 300.0 + 2000 > 1000`. -/
structure VolError where
  kind : VolErrorKind
  container : String
  row : Nat
  col : Nat
  oldVolume : ℚ
  delta : ℚ
  bound : ℚ
  deriving DecidableEq, Repr

/-- Point update of a two-argument volume matrix. -/
def upd2 (f : Nat → Nat → ℚ) (r c : Nat) (v : ℚ) : Nat → Nat → ℚ :=
  fun r' c' => if r' = r then (if c' = c then v else f r' c') else f r' c'

/-- Point update of a composition map at one well, for all component keys. -/
def updComp (f : String → Nat → Nat → ℚ) (r c : Nat) (g : String → ℚ) :
    String → Nat → Nat → ℚ :=
  fun k r' c' => if r' = r then (if c' = c then g k else f k r' c') else f k r' c'

/-- Modelled from the spec: the Composition Mixer, a pure function. Given
existing volume v0 with composition c0 and incoming volume dv with composition
cin, the new fraction of every component k is
(v0 * c0 k + dv * cin k) / (v0 + dv); when v0 + dv = 0 the well keeps the
"never filled" empty composition (all fractions 0). -/
def combine_composition (v0 : ℚ) (c0 : String → ℚ) (dv : ℚ) (cin : String → ℚ) :
    String → ℚ :=
  if v0 + dv = 0 then fun _ => 0
  else fun k => (v0 * c0 k + dv * cin k) / (v0 + dv)

/-- Modelled from the spec: a Container. `physRows` and `cols` give the
physical grid; `virtualRows` equals `physRows` for plate-like labware and
exceeds it for shared-reservoir (Trough) containers, whose physical row count
is 1.  `vols` and `comp` are indexed by the physical grid. -/
structure Labware where
  name : String
  physRows : Nat
  cols : Nat
  virtualRows : Nat
  minVolume : ℚ
  maxVolume : ℚ
  vols : Nat → Nat → ℚ
  comp : String → Nat → Nat → ℚ

/-- Modelled from the spec: the Virtual-Well Resolver's mapping of a logical
(virtual) row onto physical storage: for shared-reservoir containers every
virtual row aliases the single physical row 0; otherwise rows are physical. -/
def Labware.physRowOf (lw : Labware) (r : Nat) : Nat :=
  if lw.physRows < lw.virtualRows then 0 else r

/-- Modelled from the spec: adding volume dv with incoming composition cin to
one well.  Fails with VolumeOverflow when the new volume would exceed
max_volume; otherwise commits the mixed composition and the new volume. -/
def Labware.addOne (lw : Labware) (r c : Nat) (dv : ℚ) (cin : String → ℚ) :
    Except VolError Labware :=
  let pr := lw.physRowOf r
  let v0 := lw.vols pr c
  if lw.maxVolume < v0 + dv then
    .error ⟨.overflow, lw.name, r, c, v0, dv, lw.maxVolume⟩
  else
    .ok { lw with
            vols := upd2 lw.vols pr c (v0 + dv),
            comp := updComp lw.comp pr c
              (combine_composition v0 (fun k => lw.comp k pr c) dv cin) }

/-- Modelled from the spec: removing volume dv from one well.  Fails with
VolumeUnderflow when the new volume would be below min_volume without landing
exactly on 0; composition fractions are unchanged by removal. -/
def Labware.removeOne (lw : Labware) (r c : Nat) (dv : ℚ) :
    Except VolError Labware :=
  let pr := lw.physRowOf r
  let v0 := lw.vols pr c
  if v0 - dv < lw.minVolume ∧ v0 - dv ≠ 0 then
    .error ⟨.underflow, lw.name, r, c, v0, dv, lw.minVolume⟩
  else
    .ok { lw with vols := upd2 lw.vols pr c (v0 - dv) }

/-- Modelled from the spec: `Labware.add` over a list of (well, volume) pairs,
processed sequentially in list order.  Mutations are in place, so when a later
pair violates its bound the wells already processed keep their updated volumes
and the error is raised with the ledger in that partially-updated state
(spec section 5: no transactional rollback; the Labware-Basics notebook shows
A01/B01 at 500 after the failed add of 2000 to C01). -/
def Labware.addMany (lw : Labware) (cin : String → ℚ) :
    List ((Nat × Nat) × ℚ) → Labware × Option VolError
  | [] => (lw, none)
  | (w, dv) :: rest =>
    match lw.addOne w.1 w.2 dv cin with
    | .error e => (lw, some e)
    | .ok lw' => lw'.addMany cin rest

/-- Modelled from the spec: `Labware.remove` over a list of (well, volume)
pairs, processed sequentially in list order with in-place mutation, like
`Labware.addMany`. -/
def Labware.removeMany (lw : Labware) :
    List ((Nat × Nat) × ℚ) → Labware × Option VolError
  | [] => (lw, none)
  | (w, dv) :: rest =>
    match lw.removeOne w.1 w.2 dv with
    | .error e => (lw, some e)
    | .ok lw' => lw'.removeMany rest

/-- Modelled from the spec: `get_trough_wells n trough_wells` returns a
length-n sequence of virtual addresses cycling round-robin through the given
well list (all virtual addresses of the first physical column before
advancing to the next). -/
def get_trough_wells (n : Nat) (wells : List (Nat × Nat)) : List (Nat × Nat) :=
  (List.range n).map (fun i => wells.getD (i % wells.length) (0, 0))

/-- Modelled from the spec: the Tip-Mask Codec's encoder. The mask is the
bitwise OR of 2 ^ (i - 1) over the supplied tip indices. -/
def encodeTips (l : List Nat) : Nat :=
  l.foldl (fun m i => m ||| 2 ^ (i - 1)) 0

/-- Modelled from the spec: the Tip-Mask Codec's decoder, the inverse of
`encodeTips` on tip indices in [1, N]: the set of indices whose bit is set. -/
def decodeTips (N mask : Nat) : Finset Nat :=
  ((Finset.range N).image (fun i => i + 1)).filter (fun i => Nat.testBit mask (i - 1))

/-- Modelled from the spec: the per-pair large-volume split.  A volume V at
most the step cap S is one step; otherwise n = ceil(V / S) steps are emitted,
each of the integer size ceil(V / n) except the last, which absorbs the
rounding remainder so that the steps sum to V exactly.  This reproduces the
steps shown in the Large-Volume-Handling notebook
(V = 2500, S = 950 gives the steps 834, 834, 832). -/
def partitionVolume (V : ℚ) (S : Nat) : List ℚ :=
  if V ≤ (S : ℚ) then [V]
  else
    let n : Nat := (⌈V / (S : ℚ)⌉).toNat
    let step : ℚ := ((⌈V / (n : ℚ)⌉ : ℤ) : ℚ)
    List.replicate (n - 1) step ++ [V - ((n - 1 : Nat) : ℚ) * step]

/-- Modelled from the spec: one typed record of the Instruction Log. -/
inductive Rec where
  | asp (container : String) (pos : Nat) (vol : ℚ)
  | disp (container : String) (pos : Nat) (vol : ℚ)
  | wash (scheme : Nat)
  | brk
  | comment (text : String)
  deriving DecidableEq, Repr

/-- Modelled from the spec: the position field emitted for a well, the 1-based
column-major linear index into the container's addressable grid.  The EVO
numbering counts virtual rows, so for shared-reservoir containers the virtual
row and the virtual row count are used (the Worklist-Basics notebook shows
positions 1..8 on a trough with 8 virtual rows and one physical row). -/
def wellPosition (lw : Labware) (r c : Nat) : Nat :=
  r + lw.virtualRows * c + 1

/-- One (source well, destination well, volume) pair of a transfer request. -/
structure TPair where
  srcR : Nat
  srcC : Nat
  dstR : Nat
  dstC : Nat
  vol : ℚ
  deriving DecidableEq, Repr

/-- State threaded through a transfer: both ledgers and the record log. -/
structure TransferState where
  src : Labware
  dst : Labware
  recs : List Rec

/-- Modelled from the spec: one primitive step of a planned transfer:
remove from the source, add to the destination carrying the source well's
composition at the time of removal, and append aspirate, dispense and wash
records. -/
def stepOne (ws : Nat) (st : TransferState) (p : TPair) (v : ℚ) :
    Except VolError TransferState :=
  match st.src.removeOne p.srcR p.srcC v with
  | .error e => .error e
  | .ok src' =>
    match st.dst.addOne p.dstR p.dstC v
        (fun k => st.src.comp k (st.src.physRowOf p.srcR) p.srcC) with
    | .error e => .error e
    | .ok dst' =>
      .ok ⟨src', dst',
        st.recs ++ [Rec.asp st.src.name (wellPosition st.src p.srcR p.srcC) v,
                    Rec.disp st.dst.name (wellPosition st.dst p.dstR p.dstC) v,
                    Rec.wash ws]⟩

/-- Modelled from the spec: one synchronized wave.  Wave k performs the k-th
remaining step of every pair that still has a step left and skips the
others. -/
def runWave (ws k : Nat) :
    TransferState → List (TPair × List ℚ) → Except VolError TransferState
  | st, [] => .ok st
  | st, (p, steps) :: rest =>
    if k < steps.length then
      match stepOne ws st p (steps.getD k 0) with
      | .error e => .error e
      | .ok st' => runWave ws k st' rest
    else runWave ws k st rest

/-- Largest step count among the pairs of a batch: the wave count. -/
def maxSteps (pws : List (TPair × List ℚ)) : Nat :=
  pws.foldr (fun q m => max q.2.length m) 0

/-- Modelled from the spec and the Large-Volume-Handling notebook: run waves
k, k+1, ... while fuel lasts; when the batch required splitting (`brk` set) a
batch-boundary Break record follows every wave. -/
def runWavesFrom (ws : Nat) (brk : Bool) (pws : List (TPair × List ℚ)) :
    Nat → Nat → TransferState → Except VolError TransferState
  | _, 0, st => .ok st
  | k, fuel + 1, st =>
    match runWave ws k st pws with
    | .error e => .error e
    | .ok st' =>
      runWavesFrom ws brk pws (k + 1) fuel
        (if brk then ⟨st'.src, st'.dst, st'.recs ++ [Rec.brk]⟩ else st')

/-- Modelled from the spec: process one column-aligned batch: split every
pair's volume by the step cap S, then run the synchronized waves. -/
def runBatch (ws S : Nat) (st : TransferState) (pairs : List TPair) :
    Except VolError TransferState :=
  let pws := pairs.map (fun p => (p, partitionVolume p.vol S))
  runWavesFrom ws (decide (2 ≤ maxSteps pws)) pws 0 (maxSteps pws) st

/-- Column key used for partitioning in the default auto mode: pairs are
grouped by source column unless the source is a shared-reservoir container,
in which case they are grouped by destination column. -/
def colKey (src : Labware) (p : TPair) : Nat :=
  if src.physRows < src.virtualRows then p.dstC else p.srcC

/-- Modelled from the spec: group the pairs of a transfer into column-aligned
batches, in order of first appearance of the column key, keeping the request
order inside every batch. -/
def batchesOf (src : Labware) (pairs : List TPair) : List (List TPair) :=
  ((pairs.map (colKey src)).dedup).map
    (fun key => pairs.filter (fun p => colKey src p = key))

/-- Process the batches of a transfer in order. -/
def runBatches (ws S : Nat) :
    TransferState → List (List TPair) → Except VolError TransferState
  | st, [] => .ok st
  | st, b :: rest =>
    match runBatch ws S st b with
    | .error e => .error e
    | .ok st' => runBatches ws S st' rest

/-- Failure modes of a transfer call. -/
inductive TError where
  | invalidVolume
  | volume (e : VolError)
  deriving DecidableEq, Repr

/-- Modelled from the spec: the Transfer Planner's `transfer` (default auto
partition mode).  Negative volumes fail with InvalidVolume; zero-volume pairs
are dropped before emission; the label is logged as a comment record; the
remaining pairs are split into column batches and processed wave by wave. -/
def transfer (src dst : Labware) (pairs : List TPair) (S ws : Nat)
    (label : String) : Except TError TransferState :=
  if pairs.any (fun p => decide (p.vol < 0)) then .error .invalidVolume
  else
    match runBatches ws S ⟨src, dst, [Rec.comment label]⟩
        (batchesOf src (pairs.filter (fun p => !decide (p.vol = 0)))) with
    | .error e => .error (.volume e)
    | .ok st => .ok st

/-- Observation: did a transfer succeed. -/
def resOk {ε α : Type} : Except ε α → Bool
  | .ok _ => true
  | .error _ => false

/-- Observation: the records of a successful transfer, [] on failure. -/
def recsOf : Except TError TransferState → List Rec
  | .ok st => st.recs
  | .error _ => []

/-- Observation: a source-ledger volume cell of the post-transfer state. -/
def srcVolAt (res : Except TError TransferState) (r c : Nat) : Option ℚ :=
  match res with
  | .ok st => some (st.src.vols r c)
  | .error _ => none

/-- Observation: a destination-ledger volume cell of the post-transfer state. -/
def dstVolAt (res : Except TError TransferState) (r c : Nat) : Option ℚ :=
  match res with
  | .ok st => some (st.dst.vols r c)
  | .error _ => none

/-- Observation: a source-ledger composition fraction after a transfer. -/
def srcCompAt (res : Except TError TransferState) (k : String) (r c : Nat) :
    Option ℚ :=
  match res with
  | .ok st => some (st.src.comp k r c)
  | .error _ => none

/-- Observation: a destination-ledger composition fraction after a transfer. -/
def dstCompAt (res : Except TError TransferState) (k : String) (r c : Nat) :
    Option ℚ :=
  match res with
  | .ok st => some (st.dst.comp k r c)
  | .error _ => none

def okCompAt (res : Except VolError Labware) (k : String) (r c : Nat) : Option ℚ :=
  match res with
  | .ok lw => some (lw.comp k r c)
  | .error _ => none

def sameShape (a b : Labware) : Prop :=
  a.name = b.name ∧ a.physRows = b.physRows ∧ a.cols = b.cols ∧
  a.virtualRows = b.virtualRows ∧ a.minVolume = b.minVolume ∧ a.maxVolume = b.maxVolume

def plateW : Labware :=
  ⟨"24-well plate", 4, 6, 4, 100, 1000, fun _ _ => 300, fun _ _ _ => 0⟩

def cin0 : String → ℚ := fun _ => 0

def psW : List ((Nat × Nat) × ℚ) := [((0, 0), 200), ((1, 0), 200), ((2, 0), 2000)]

def ps2W : List ((Nat × Nat) × ℚ) := [((0, 0), 2000)]

def troughQ : Labware :=
  ⟨"4xTrough", 1, 4, 8, 1000, 30000, fun _ c => if c = 0 then 20000 else 10000,
    fun _ _ _ => 0⟩

def wells8 : List (Nat × Nat) := (List.range 8).map (fun r => (r, 0))

def pairRecs (src0 dst0 : Labware) (ws : Nat) (p : TPair) (v : ℚ) : List Rec :=
  [Rec.asp src0.name (wellPosition src0 p.srcR p.srcC) v,
   Rec.disp dst0.name (wellPosition dst0 p.dstR p.dstC) v,
   Rec.wash ws]

def waveRecs (src0 dst0 : Labware) (ws k : Nat) : List (TPair × List ℚ) → List Rec
  | [] => []
  | q :: rest =>
    (if k < q.2.length then pairRecs src0 dst0 ws q.1 (q.2.getD k 0) else [])
      ++ waveRecs src0 dst0 ws k rest

def wavesRecs (src0 dst0 : Labware) (ws : Nat) (brk : Bool)
    (pws : List (TPair × List ℚ)) : Nat → Nat → List Rec
  | _, 0 => []
  | k, fuel + 1 =>
    (waveRecs src0 dst0 ws k pws ++ (if brk then [Rec.brk] else []))
      ++ wavesRecs src0 dst0 ws brk pws (k + 1) fuel

def batchRecs (src0 dst0 : Labware) (ws S : Nat) (pairs : List TPair) : List Rec :=
  wavesRecs src0 dst0 ws
    (decide (2 ≤ maxSteps (pairs.map (fun p => (p, partitionVolume p.vol S)))))
    (pairs.map (fun p => (p, partitionVolume p.vol S))) 0
    (maxSteps (pairs.map (fun p => (p, partitionVolume p.vol S))))

def batchesRecs (src0 dst0 : Labware) (ws S : Nat) : List (List TPair) → List Rec
  | [] => []
  | b :: rest => batchRecs src0 dst0 ws S b ++ batchesRecs src0 dst0 ws S rest

def srcUntouched (src0 : Labware) (pairs : List TPair) (r c : Nat) : Prop :=
  ∀ p ∈ pairs, ¬ (src0.physRowOf p.srcR = r ∧ p.srcC = c)

def dstUntouched (dst0 : Labware) (pairs : List TPair) (r c : Nat) : Prop :=
  ∀ p ∈ pairs, ¬ (dst0.physRowOf p.dstR = r ∧ p.dstC = c)

def batchResult (src dst : Labware) (ws S : Nat) (pairs : List TPair) :
    Except VolError TransferState :=
  runBatch ws S ⟨src, dst, []⟩ pairs

def batchRecsOf (src dst : Labware) (ws S : Nat) (pairs : List TPair) : List Rec :=
  match batchResult src dst ws S pairs with
  | .ok st => st.recs
  | .error _ => []

def srcS : Labware := ⟨"s", 2, 1, 2, 0, 10000, fun _ _ => 5000, fun _ _ _ => 0⟩

def dstS : Labware := ⟨"d", 2, 1, 2, 0, 10000, fun _ _ => 0, fun _ _ _ => 0⟩

def troughS : Labware := ⟨"t", 1, 1, 8, 0, 100000, fun _ _ => 50000, fun _ _ _ => 0⟩

def mixW : Labware :=
  ⟨"w", 1, 1, 1, 0, 10000, fun _ _ => 500, fun k _ _ => if k = "water" then 1 else 0⟩

def cinW : String → ℚ := fun k => if k = "glucose" then 1 else 0

/-- Claim C2: for a well with volume v0 and composition c0 receiving volume dv
of composition cin, the post-add composition satisfies, for every component k,
the fraction (v0*c0[k] + dv*cin[k]) / (v0 + dv), and when v0 + dv = 0 the well
keeps the empty composition; remove never changes any composition fraction. -/
theorem composition_mixer_spec (lw : Labware) (r c : Nat) (dv : ℚ)
    (cin : String → ℚ) (k : String) :
    (resOk (lw.addOne r c dv cin) = true →
      okCompAt (lw.addOne r c dv cin) k (lw.physRowOf r) c
        = some (if lw.vols (lw.physRowOf r) c + dv = 0 then 0
                else (lw.vols (lw.physRowOf r) c * lw.comp k (lw.physRowOf r) c
                        + dv * cin k)
                      / (lw.vols (lw.physRowOf r) c + dv))) ∧
    (resOk (lw.removeOne r c dv) = true →
      ∀ r' c', okCompAt (lw.removeOne r c dv) k r' c' = some (lw.comp k r' c')) := by
  constructor
  · intro h
    unfold Labware.addOne at h ⊢
    by_cases hif : lw.maxVolume < lw.vols (lw.physRowOf r) c + dv
    · simp [hif, resOk] at h
    · simp only [hif, if_false]
      simp only [okCompAt, updComp, combine_composition, if_pos rfl]
      by_cases h0 : lw.vols (lw.physRowOf r) c + dv = 0
      · simp [h0]
      · simp [h0]
  · intro h r' c'
    unfold Labware.removeOne at h ⊢
    by_cases hif : lw.vols (lw.physRowOf r) c - dv < lw.minVolume ∧
        lw.vols (lw.physRowOf r) c - dv ≠ 0
    · simp [hif, resOk] at h
    · simp [hif, okCompAt]

lemma sameShape_refl (a : Labware) : sameShape a a := ⟨rfl, rfl, rfl, rfl, rfl, rfl⟩

lemma sameShape_trans {a b c : Labware} (h1 : sameShape a b) (h2 : sameShape b c) :
    sameShape a c := by
  obtain ⟨e1, e2, e3, e4, e5, e6⟩ := h1
  obtain ⟨f1, f2, f3, f4, f5, f6⟩ := h2
  exact ⟨e1.trans f1, e2.trans f2, e3.trans f3, e4.trans f4, e5.trans f5, e6.trans f6⟩

lemma sameShape_physRowOf {a b : Labware} (h : sameShape a b) :
    a.physRowOf = b.physRowOf := by
  funext r
  unfold Labware.physRowOf
  rw [h.2.1, h.2.2.2.1]

lemma addOne_ok_elim {lw lw2 : Labware} {r c : Nat} {dv : ℚ} {cin : String → ℚ}
    (h : lw.addOne r c dv cin = .ok lw2) :
    ¬ lw.maxVolume < lw.vols (lw.physRowOf r) c + dv ∧
    lw2 = { lw with
      vols := upd2 lw.vols (lw.physRowOf r) c (lw.vols (lw.physRowOf r) c + dv),
      comp := updComp lw.comp (lw.physRowOf r) c
        (combine_composition (lw.vols (lw.physRowOf r) c)
          (fun k => lw.comp k (lw.physRowOf r) c) dv cin) } := by
  unfold Labware.addOne at h
  by_cases hif : lw.maxVolume < lw.vols (lw.physRowOf r) c + dv
  · simp [hif] at h
  · simp only [hif, if_false, Except.ok.injEq] at h
    exact ⟨hif, h.symm⟩

lemma addOne_error_elim {lw : Labware} {r c : Nat} {dv : ℚ} {cin : String → ℚ} {e : VolError}
    (h : lw.addOne r c dv cin = .error e) :
    lw.maxVolume < lw.vols (lw.physRowOf r) c + dv ∧
    e = ⟨.overflow, lw.name, r, c, lw.vols (lw.physRowOf r) c, dv, lw.maxVolume⟩ := by
  unfold Labware.addOne at h
  by_cases hif : lw.maxVolume < lw.vols (lw.physRowOf r) c + dv
  · simp only [hif, if_true, Except.error.injEq] at h
    exact ⟨hif, h.symm⟩
  · simp [hif] at h

lemma removeOne_ok_elim {lw lw2 : Labware} {r c : Nat} {dv : ℚ}
    (h : lw.removeOne r c dv = .ok lw2) :
    lw2 = { lw with
      vols := upd2 lw.vols (lw.physRowOf r) c (lw.vols (lw.physRowOf r) c - dv) } := by
  unfold Labware.removeOne at h
  by_cases hif : lw.vols (lw.physRowOf r) c - dv < lw.minVolume ∧
      lw.vols (lw.physRowOf r) c - dv ≠ 0
  · simp [hif] at h
  · simp only [hif, if_false, Except.ok.injEq] at h
    exact h.symm

lemma removeOne_error_elim {lw : Labware} {r c : Nat} {dv : ℚ} {e : VolError}
    (h : lw.removeOne r c dv = .error e) :
    (lw.vols (lw.physRowOf r) c - dv < lw.minVolume ∧
      lw.vols (lw.physRowOf r) c - dv ≠ 0) ∧
    e = ⟨.underflow, lw.name, r, c, lw.vols (lw.physRowOf r) c, dv, lw.minVolume⟩ := by
  unfold Labware.removeOne at h
  by_cases hif : lw.vols (lw.physRowOf r) c - dv < lw.minVolume ∧
      lw.vols (lw.physRowOf r) c - dv ≠ 0
  · rw [if_pos hif] at h
    injection h with h2
    exact ⟨hif, h2.symm⟩
  · simp [hif] at h

lemma addOne_ok_shape {lw lw2 : Labware} {r c : Nat} {dv : ℚ} {cin : String → ℚ}
    (h : lw.addOne r c dv cin = .ok lw2) : sameShape lw2 lw := by
  rw [(addOne_ok_elim h).2]
  exact ⟨rfl, rfl, rfl, rfl, rfl, rfl⟩

lemma removeOne_ok_shape {lw lw2 : Labware} {r c : Nat} {dv : ℚ}
    (h : lw.removeOne r c dv = .ok lw2) : sameShape lw2 lw := by
  rw [removeOne_ok_elim h]
  exact ⟨rfl, rfl, rfl, rfl, rfl, rfl⟩

lemma upd2_ne {f : Nat → Nat → ℚ} {r c r' c' : Nat} {v : ℚ}
    (h : ¬ (r = r' ∧ c = c')) : upd2 f r c v r' c' = f r' c' := by
  unfold upd2
  by_cases h1 : r' = r
  · by_cases h2 : c' = c
    · exact absurd ⟨h1.symm, h2.symm⟩ h
    · simp [h1, h2]
  · simp [h1]

lemma upd2_self {f : Nat → Nat → ℚ} {r c : Nat} {v : ℚ} : upd2 f r c v r c = v := by
  simp [upd2]

lemma addMany_shape (cin : String → ℚ) :
    ∀ (ps : List ((Nat × Nat) × ℚ)) (lw : Labware),
      sameShape (Labware.addMany lw cin ps).1 lw := by
  intro ps
  induction ps with
  | nil => intro lw; exact sameShape_refl lw
  | cons q rest ih =>
    intro lw
    obtain ⟨w, dv⟩ := q
    rcases h : lw.addOne w.1 w.2 dv cin with e | lw'
    · simp only [Labware.addMany, h]
      exact sameShape_refl lw
    · simp only [Labware.addMany, h]
      exact sameShape_trans (ih lw') (addOne_ok_shape h)

lemma removeMany_shape :
    ∀ (ps : List ((Nat × Nat) × ℚ)) (lw : Labware),
      sameShape (Labware.removeMany lw ps).1 lw := by
  intro ps
  induction ps with
  | nil => intro lw; exact sameShape_refl lw
  | cons q rest ih =>
    intro lw
    obtain ⟨w, dv⟩ := q
    rcases h : lw.removeOne w.1 w.2 dv with e | lw'
    · simp only [Labware.removeMany, h]
      exact sameShape_refl lw
    · simp only [Labware.removeMany, h]
      exact sameShape_trans (ih lw') (removeOne_ok_shape h)

lemma addMany_untouched (cin : String → ℚ) :
    ∀ (ps : List ((Nat × Nat) × ℚ)) (lw : Labware) (r c : Nat),
      (∀ q ∈ ps, ¬ (lw.physRowOf q.1.1 = r ∧ q.1.2 = c)) →
      ((Labware.addMany lw cin ps).1).vols r c = lw.vols r c := by
  intro ps
  induction ps with
  | nil => intro lw r c _; rfl
  | cons q rest ih =>
    intro lw r c hq
    obtain ⟨w, dv⟩ := q
    rcases h : lw.addOne w.1 w.2 dv cin with e | lw'
    · simp only [Labware.addMany, h]
    · simp only [Labware.addMany, h]
      have hsh := addOne_ok_shape h
      have hpr : lw'.physRowOf = lw.physRowOf := sameShape_physRowOf hsh
      have hvols : lw'.vols r c = lw.vols r c := by
        rw [(addOne_ok_elim h).2]
        exact upd2_ne (by
          have := hq (w, dv) (List.mem_cons_self _ _)
          exact this)
      rw [← hvols]
      apply ih lw'
      intro q hqr
      rw [hpr]
      exact hq q (List.mem_cons_of_mem _ hqr)

lemma removeMany_untouched :
    ∀ (ps : List ((Nat × Nat) × ℚ)) (lw : Labware) (r c : Nat),
      (∀ q ∈ ps, ¬ (lw.physRowOf q.1.1 = r ∧ q.1.2 = c)) →
      ((Labware.removeMany lw ps).1).vols r c = lw.vols r c := by
  intro ps
  induction ps with
  | nil => intro lw r c _; rfl
  | cons q rest ih =>
    intro lw r c hq
    obtain ⟨w, dv⟩ := q
    rcases h : lw.removeOne w.1 w.2 dv with e | lw'
    · simp only [Labware.removeMany, h]
    · simp only [Labware.removeMany, h]
      have hsh := removeOne_ok_shape h
      have hpr : lw'.physRowOf = lw.physRowOf := sameShape_physRowOf hsh
      have hvols : lw'.vols r c = lw.vols r c := by
        rw [removeOne_ok_elim h]
        exact upd2_ne (hq (w, dv) (List.mem_cons_self _ _))
      rw [← hvols]
      apply ih lw'
      intro q hqr
      rw [hpr]
      exact hq q (List.mem_cons_of_mem _ hqr)

lemma addMany_error_split (cin : String → ℚ) :
    ∀ (ps : List ((Nat × Nat) × ℚ)) (lw : Labware) (e : VolError),
      (Labware.addMany lw cin ps).2 = some e →
      ∃ pre w dv rest, ps = pre ++ (w, dv) :: rest ∧
        (Labware.addMany lw cin pre).2 = none ∧
        (Labware.addMany lw cin ps).1 = (Labware.addMany lw cin pre).1 ∧
        ((Labware.addMany lw cin pre).1).addOne w.1 w.2 dv cin = .error e := by
  intro ps
  induction ps with
  | nil => intro lw e h; simp [Labware.addMany] at h
  | cons q rest ih =>
    intro lw e h
    obtain ⟨w, dv⟩ := q
    rcases hstep : lw.addOne w.1 w.2 dv cin with e0 | lw'
    · simp only [Labware.addMany, hstep] at h
      refine ⟨[], w, dv, rest, rfl, rfl, ?_, ?_⟩
      · simp only [Labware.addMany, hstep]
      · simp only [Labware.addMany]
        rw [hstep, Option.some_inj.mp h]
    · simp only [Labware.addMany, hstep] at h
      obtain ⟨pre', w', dv', rest', hps, hnone, hfst, herr⟩ := ih lw' e h
      refine ⟨(w, dv) :: pre', w', dv', rest', by rw [hps, List.cons_append], ?_, ?_, ?_⟩
      · simp only [Labware.addMany, hstep]
        exact hnone
      · simp only [Labware.addMany, hstep]
        exact hfst
      · simp only [Labware.addMany, hstep]
        exact herr

lemma removeMany_error_split :
    ∀ (ps : List ((Nat × Nat) × ℚ)) (lw : Labware) (e : VolError),
      (Labware.removeMany lw ps).2 = some e →
      ∃ pre w dv rest, ps = pre ++ (w, dv) :: rest ∧
        (Labware.removeMany lw pre).2 = none ∧
        (Labware.removeMany lw ps).1 = (Labware.removeMany lw pre).1 ∧
        ((Labware.removeMany lw pre).1).removeOne w.1 w.2 dv = .error e := by
  intro ps
  induction ps with
  | nil => intro lw e h; simp [Labware.removeMany] at h
  | cons q rest ih =>
    intro lw e h
    obtain ⟨w, dv⟩ := q
    rcases hstep : lw.removeOne w.1 w.2 dv with e0 | lw'
    · simp only [Labware.removeMany, hstep] at h
      refine ⟨[], w, dv, rest, rfl, rfl, ?_, ?_⟩
      · simp only [Labware.removeMany, hstep]
      · simp only [Labware.removeMany]
        rw [hstep, Option.some_inj.mp h]
    · simp only [Labware.removeMany, hstep] at h
      obtain ⟨pre', w', dv', rest', hps, hnone, hfst, herr⟩ := ih lw' e h
      refine ⟨(w, dv) :: pre', w', dv', rest', by rw [hps, List.cons_append], ?_, ?_, ?_⟩
      · simp only [Labware.removeMany, hstep]
        exact hnone
      · simp only [Labware.removeMany, hstep]
        exact hfst
      · simp only [Labware.removeMany, hstep]
        exact herr

lemma nodupCellsCons {lw : Labware} {w : Nat × Nat} {dv : ℚ}
    {rest : List ((Nat × Nat) × ℚ)}
    (hnd : (((w, dv) :: rest).map (fun q => (lw.physRowOf q.1.1, q.1.2))).Nodup) :
    ((lw.physRowOf w.1, w.2) ∉ rest.map (fun q => (lw.physRowOf q.1.1, q.1.2))) ∧
    (rest.map (fun q => (lw.physRowOf q.1.1, q.1.2))).Nodup := by
  rw [List.map_cons] at hnd
  exact List.nodup_cons.mp hnd

lemma addMany_raises (cin : String → ℚ) :
    ∀ (ps : List ((Nat × Nat) × ℚ)) (lw : Labware),
      (ps.map (fun q => (lw.physRowOf q.1.1, q.1.2))).Nodup →
      (∃ q ∈ ps, lw.maxVolume < lw.vols (lw.physRowOf q.1.1) q.1.2 + q.2) →
      ((Labware.addMany lw cin ps).2).isSome = true := by
  intro ps
  induction ps with
  | nil => rintro lw _ ⟨q, hq, _⟩; simp at hq
  | cons q0 rest ih =>
    rintro lw hnd ⟨q, hq, hviol⟩
    obtain ⟨w, dv⟩ := q0
    rcases hstep : lw.addOne w.1 w.2 dv cin with e0 | lw'
    · simp only [Labware.addMany, hstep, Option.isSome_some]
    · simp only [Labware.addMany, hstep]
      have hok := addOne_ok_elim hstep
      have hnd2 := nodupCellsCons hnd
      rcases List.mem_cons.mp hq with rfl | hqr
      · exact absurd hviol hok.1
      · have hsh := addOne_ok_shape hstep
        have hpr : lw'.physRowOf = lw.physRowOf := sameShape_physRowOf hsh
        have hcell : ¬ (lw.physRowOf w.1 = lw.physRowOf q.1.1 ∧ w.2 = q.1.2) := by
          intro hcontra
          exact hnd2.1 (by
            rw [hcontra.1, hcontra.2]
            exact List.mem_map.mpr ⟨q, hqr, rfl⟩)
        apply ih lw'
        · rw [hpr]
          exact hnd2.2
        · refine ⟨q, hqr, ?_⟩
          rw [hpr, hsh.2.2.2.2.2]
          have hvq : lw'.vols (lw.physRowOf q.1.1) q.1.2
              = lw.vols (lw.physRowOf q.1.1) q.1.2 := by
            rw [hok.2]
            exact upd2_ne hcell
          rw [hvq]
          exact hviol

lemma removeMany_raises :
    ∀ (ps : List ((Nat × Nat) × ℚ)) (lw : Labware),
      (ps.map (fun q => (lw.physRowOf q.1.1, q.1.2))).Nodup →
      (∃ q ∈ ps, lw.vols (lw.physRowOf q.1.1) q.1.2 - q.2 < lw.minVolume ∧
        lw.vols (lw.physRowOf q.1.1) q.1.2 - q.2 ≠ 0) →
      ((Labware.removeMany lw ps).2).isSome = true := by
  intro ps
  induction ps with
  | nil => rintro lw _ ⟨q, hq, _⟩; simp at hq
  | cons q0 rest ih =>
    rintro lw hnd ⟨q, hq, hviol⟩
    obtain ⟨w, dv⟩ := q0
    rcases hstep : lw.removeOne w.1 w.2 dv with e0 | lw'
    · simp only [Labware.removeMany, hstep, Option.isSome_some]
    · simp only [Labware.removeMany, hstep]
      have hok := removeOne_ok_elim hstep
      have hnoerr : ¬ (lw.vols (lw.physRowOf w.1) w.2 - dv < lw.minVolume ∧
          lw.vols (lw.physRowOf w.1) w.2 - dv ≠ 0) := by
        intro hcond
        unfold Labware.removeOne at hstep
        rw [if_pos hcond] at hstep
        exact Except.noConfusion hstep
      have hnd2 := nodupCellsCons hnd
      rcases List.mem_cons.mp hq with rfl | hqr
      · exact absurd hviol hnoerr
      · have hsh := removeOne_ok_shape hstep
        have hpr : lw'.physRowOf = lw.physRowOf := sameShape_physRowOf hsh
        have hcell : ¬ (lw.physRowOf w.1 = lw.physRowOf q.1.1 ∧ w.2 = q.1.2) := by
          intro hcontra
          exact hnd2.1 (by
            rw [hcontra.1, hcontra.2]
            exact List.mem_map.mpr ⟨q, hqr, rfl⟩)
        apply ih lw'
        · rw [hpr]
          exact hnd2.2
        · refine ⟨q, hqr, ?_⟩
          rw [hpr, hsh.2.2.2.2.1]
          have hvq : lw'.vols (lw.physRowOf q.1.1) q.1.2
              = lw.vols (lw.physRowOf q.1.1) q.1.2 := by
            rw [hok]
            exact upd2_ne hcell
          rw [hvq]
          exact hviol

lemma addMany_none_vols (cin : String → ℚ) :
    ∀ (ps : List ((Nat × Nat) × ℚ)) (lw : Labware),
      (Labware.addMany lw cin ps).2 = none →
      (ps.map (fun q => (lw.physRowOf q.1.1, q.1.2))).Nodup →
      ∀ q ∈ ps, ((Labware.addMany lw cin ps).1).vols (lw.physRowOf q.1.1) q.1.2
        = lw.vols (lw.physRowOf q.1.1) q.1.2 + q.2 := by
  intro ps
  induction ps with
  | nil => intro lw _ _ q hq; simp at hq
  | cons q0 rest ih =>
    intro lw hnone hnd q hq
    obtain ⟨w, dv⟩ := q0
    rcases hstep : lw.addOne w.1 w.2 dv cin with e0 | lw'
    · simp only [Labware.addMany, hstep] at hnone
      exact Option.noConfusion hnone
    · simp only [Labware.addMany, hstep] at hnone ⊢
      have hok := addOne_ok_elim hstep
      have hsh := addOne_ok_shape hstep
      have hpr : lw'.physRowOf = lw.physRowOf := sameShape_physRowOf hsh
      have hnd2 := nodupCellsCons hnd
      rcases List.mem_cons.mp hq with rfl | hqr
      · show (Labware.addMany lw' cin rest).1.vols (lw.physRowOf w.1) w.2
            = lw.vols (lw.physRowOf w.1) w.2 + dv
        have hv1 : lw'.vols (lw.physRowOf w.1) w.2
            = lw.vols (lw.physRowOf w.1) w.2 + dv := by
          rw [hok.2]
          exact upd2_self
        rw [← hv1]
        apply addMany_untouched
        intro q2 hq2
        rw [hpr]
        intro hcontra
        exact hnd2.1 (by
          rw [← hcontra.1, ← hcontra.2]
          exact List.mem_map.mpr ⟨q2, hq2, rfl⟩)
      · have hcell : ¬ (lw.physRowOf w.1 = lw.physRowOf q.1.1 ∧ w.2 = q.1.2) := by
          intro hcontra
          exact hnd2.1 (by
            rw [hcontra.1, hcontra.2]
            exact List.mem_map.mpr ⟨q, hqr, rfl⟩)
        have hvq : lw'.vols (lw.physRowOf q.1.1) q.1.2
            = lw.vols (lw.physRowOf q.1.1) q.1.2 := by
          rw [hok.2]
          exact upd2_ne hcell
        rw [← hvq, ← hpr]
        apply ih lw' hnone
        · rw [hpr]
          exact hnd2.2
        · exact hqr

/-- Counterexample for claim C1 (taken from the Labware-Basics notebook): the
add of [200, 200, 2000] to A01, B01, C01 on a 4 by 6 plate with 300 in every
well and max_volume 1000 raises the overflow error, yet after the failed call
well A01 holds 500, not its pre-call volume 300: the call is not atomic. -/
theorem add_atomicity_cex :
    ((Labware.addMany plateW cin0 psW).2).isSome = true ∧
    plateW.vols 0 0 = 300 ∧
    ((Labware.addMany plateW cin0 psW).1).vols 0 0 = 500 ∧
    ¬ ((500 : ℚ) = 300) := by
  with_unfolding_all decide

/-- Claim C1, amended: if applying the requested per-well changes would take
any targeted well above max_volume (or below min_volume without landing
exactly on 0), the add or remove call raises VolumeOverflow/VolumeUnderflow;
wells are checked and written one at a time in list order, so every well not
targeted by an entry preceding the first violating entry holds exactly its
pre-call volume (in particular a single-well call leaves the ledger
unchanged), while wells written by earlier entries keep those updates. -/
theorem add_remove_raise_and_preserve (lw : Labware) (cin : String → ℚ)
    (ps : List ((Nat × Nat) × ℚ)) :
    ((ps.map (fun q => (lw.physRowOf q.1.1, q.1.2))).Nodup →
      (∃ q ∈ ps, lw.maxVolume < lw.vols (lw.physRowOf q.1.1) q.1.2 + q.2) →
      ((Labware.addMany lw cin ps).2).isSome = true) ∧
    (∀ e, (Labware.addMany lw cin ps).2 = some e →
      ∃ pre w dv rest, ps = pre ++ (w, dv) :: rest ∧
        ∀ r c, (∀ q ∈ pre, ¬ (lw.physRowOf q.1.1 = r ∧ q.1.2 = c)) →
          ((Labware.addMany lw cin ps).1).vols r c = lw.vols r c) ∧
    ((ps.map (fun q => (lw.physRowOf q.1.1, q.1.2))).Nodup →
      (∃ q ∈ ps, lw.vols (lw.physRowOf q.1.1) q.1.2 - q.2 < lw.minVolume ∧
        lw.vols (lw.physRowOf q.1.1) q.1.2 - q.2 ≠ 0) →
      ((Labware.removeMany lw ps).2).isSome = true) ∧
    (∀ e, (Labware.removeMany lw ps).2 = some e →
      ∃ pre w dv rest, ps = pre ++ (w, dv) :: rest ∧
        ∀ r c, (∀ q ∈ pre, ¬ (lw.physRowOf q.1.1 = r ∧ q.1.2 = c)) →
          ((Labware.removeMany lw ps).1).vols r c = lw.vols r c) := by
  refine ⟨addMany_raises cin ps lw, ?_, removeMany_raises ps lw, ?_⟩
  · intro e h
    obtain ⟨pre, w, dv, rest, hsplit, hnone, hfst, herr⟩ := addMany_error_split cin ps lw e h
    refine ⟨pre, w, dv, rest, hsplit, ?_⟩
    intro r c hr
    rw [hfst]
    exact addMany_untouched cin pre lw r c hr
  · intro e h
    obtain ⟨pre, w, dv, rest, hsplit, hnone, hfst, herr⟩ := removeMany_error_split ps lw e h
    refine ⟨pre, w, dv, rest, hsplit, ?_⟩
    intro r c hr
    rw [hfst]
    exact removeMany_untouched pre lw r c hr

/-- Witness for the amended claim C1 at a single-well call on the notebook
plate: both the overflowing add and the underflowing remove raise, and the
ledger is left unchanged. -/
theorem add_remove_raise_and_preserve_witness :
    ((Labware.addMany plateW cin0 ps2W).2).isSome = true ∧
    (∃ pre w dv rest, ps2W = pre ++ (w, dv) :: rest ∧
      ∀ r c, (∀ q ∈ pre, ¬ (plateW.physRowOf q.1.1 = r ∧ q.1.2 = c)) →
        ((Labware.addMany plateW cin0 ps2W).1).vols r c = plateW.vols r c) ∧
    ((Labware.removeMany plateW ps2W).2).isSome = true ∧
    (∃ pre w dv rest, ps2W = pre ++ (w, dv) :: rest ∧
      ∀ r c, (∀ q ∈ pre, ¬ (plateW.physRowOf q.1.1 = r ∧ q.1.2 = c)) →
        ((Labware.removeMany plateW ps2W).1).vols r c = plateW.vols r c) := by
  have h := add_remove_raise_and_preserve plateW cin0 ps2W
  refine ⟨?_, ?_, ?_, ?_⟩
  · exact h.1 (by decide) ⟨((0, 0), 2000), by decide, by with_unfolding_all decide⟩
  · exact h.2.1 ⟨.overflow, "24-well plate", 0, 0, 300, 2000, 1000⟩
      (by with_unfolding_all decide)
  · exact h.2.2.1 (by decide) ⟨((0, 0), 2000), by decide, by with_unfolding_all decide⟩
  · exact h.2.2.2 ⟨.underflow, "24-well plate", 0, 0, 300, 2000, 100⟩
      (by with_unfolding_all decide)

/-- Claim C10: when add is called with a list of wells targeting distinct
compartments and one would exceed max_volume, wells are processed sequentially
in list order: every well earlier in the list than the first violating well
retains its updated volume (old + delta) after the exception, the violating
well and all later wells retain their pre-call volumes, and the raised error
carries the container name, the violating well, the old volume, the delta and
the violated bound. -/
theorem add_error_reports_and_keeps (lw : Labware) (cin : String → ℚ)
    (ps : List ((Nat × Nat) × ℚ)) (e : VolError)
    (hnd : (ps.map (fun q => (lw.physRowOf q.1.1, q.1.2))).Nodup)
    (herr : (Labware.addMany lw cin ps).2 = some e) :
    ∃ pre w dv rest, ps = pre ++ (w, dv) :: rest ∧
      (∀ q ∈ pre, ((Labware.addMany lw cin ps).1).vols (lw.physRowOf q.1.1) q.1.2
          = lw.vols (lw.physRowOf q.1.1) q.1.2 + q.2) ∧
      (∀ q ∈ (w, dv) :: rest, ((Labware.addMany lw cin ps).1).vols (lw.physRowOf q.1.1) q.1.2
          = lw.vols (lw.physRowOf q.1.1) q.1.2) ∧
      e = ⟨.overflow, lw.name, w.1, w.2, lw.vols (lw.physRowOf w.1) w.2, dv, lw.maxVolume⟩ := by
  obtain ⟨pre, w, dv, rest, hsplit, hnone, hfst, herr2⟩ := addMany_error_split cin ps lw e herr
  subst hsplit
  rw [List.map_append, List.nodup_append] at hnd
  obtain ⟨nd1, nd2, disj⟩ := hnd
  have huntouched : ∀ q ∈ (w, dv) :: rest,
      ((Labware.addMany lw cin pre).1).vols (lw.physRowOf q.1.1) q.1.2
        = lw.vols (lw.physRowOf q.1.1) q.1.2 := by
    intro q hq
    apply addMany_untouched
    intro q2 hq2
    intro hcontra
    exact disj (List.mem_map.mpr ⟨q2, hq2, rfl⟩)
      (by
        rw [hcontra.1, hcontra.2]
        exact List.mem_map.mpr ⟨q, hq, rfl⟩)
  have hshape := addMany_shape cin pre lw
  have hpr : ((Labware.addMany lw cin pre).1).physRowOf = lw.physRowOf :=
    sameShape_physRowOf hshape
  refine ⟨pre, w, dv, rest, rfl, ?_, ?_, ?_⟩
  · intro q hq
    rw [hfst]
    exact addMany_none_vols cin pre lw hnone nd1 q hq
  · intro q hq
    rw [hfst]
    exact huntouched q hq
  · have helim := addOne_error_elim herr2
    rw [helim.2]
    have hname : ((Labware.addMany lw cin pre).1).name = lw.name := hshape.1
    have hmax : ((Labware.addMany lw cin pre).1).maxVolume = lw.maxVolume := hshape.2.2.2.2.2
    have hvol : ((Labware.addMany lw cin pre).1).vols
        (((Labware.addMany lw cin pre).1).physRowOf w.1) w.2
        = lw.vols (lw.physRowOf w.1) w.2 := by
      rw [hpr]
      exact huntouched (w, dv) (List.mem_cons_self _ _)
    rw [hname, hmax, hvol]

/-- Witness for claim C10 at the notebook instance: add of [200, 200, 2000]
to A01, B01, C01 with max 1000 errors on C01 with the data of the message
(container "24-well plate", well C01, 300 + 2000 over bound 1000); A01 and
B01 hold 500, C01 stays at 300. -/
theorem add_error_reports_and_keeps_witness :
    ((psW.map (fun q => (plateW.physRowOf q.1.1, q.1.2))).Nodup ∧
      (Labware.addMany plateW cin0 psW).2
        = some ⟨.overflow, "24-well plate", 2, 0, 300, 2000, 1000⟩) ∧
    (∃ pre w dv rest, psW = pre ++ (w, dv) :: rest ∧
      (∀ q ∈ pre, ((Labware.addMany plateW cin0 psW).1).vols (plateW.physRowOf q.1.1) q.1.2
          = plateW.vols (plateW.physRowOf q.1.1) q.1.2 + q.2) ∧
      (∀ q ∈ (w, dv) :: rest, ((Labware.addMany plateW cin0 psW).1).vols (plateW.physRowOf q.1.1) q.1.2
          = plateW.vols (plateW.physRowOf q.1.1) q.1.2) ∧
      (⟨.overflow, "24-well plate", 2, 0, 300, 2000, 1000⟩ : VolError)
        = ⟨.overflow, plateW.name, w.1, w.2, plateW.vols (plateW.physRowOf w.1) w.2, dv,
            plateW.maxVolume⟩) := by
  refine ⟨⟨by decide, by with_unfolding_all decide⟩, ?_⟩
  exact add_error_reports_and_keeps plateW cin0 psW
    ⟨.overflow, "24-well plate", 2, 0, 300, 2000, 1000⟩
    (by decide) (by with_unfolding_all decide)

lemma physRowOf_shared {lw : Labware} (h : lw.physRows < lw.virtualRows) (r : Nat) :
    lw.physRowOf r = 0 := by
  unfold Labware.physRowOf
  exact if_pos h

lemma get_trough_wells_length (n : Nat) (wells : List (Nat × Nat)) :
    (get_trough_wells n wells).length = n := by
  simp [get_trough_wells]

lemma get_trough_wells_mem {n : Nat} {wells : List (Nat × Nat)} (hw : wells ≠ [])
    {w : Nat × Nat} (hmem : w ∈ get_trough_wells n wells) : w ∈ wells := by
  unfold get_trough_wells at hmem
  rcases List.mem_map.mp hmem with ⟨i, _, rfl⟩
  have hlen : 0 < wells.length := List.length_pos.mpr hw
  have hmod : i % wells.length < wells.length := Nat.mod_lt _ hlen
  rw [List.getD_eq_getElem _ _ hmod]
  exact List.getElem_mem hmod

lemma removeMany_shared_col (v : ℚ) (c : Nat) :
    ∀ (ws : List (Nat × Nat)) (lw : Labware),
      lw.physRows < lw.virtualRows →
      (∀ w ∈ ws, w.2 = c) →
      (Labware.removeMany lw (ws.map (fun w => (w, v)))).2 = none →
      ((Labware.removeMany lw (ws.map (fun w => (w, v)))).1).vols 0 c
        = lw.vols 0 c - (ws.length : ℚ) * v := by
  intro ws
  induction ws with
  | nil =>
    intro lw _ _ _
    simp [Labware.removeMany]
  | cons w0 rest ih =>
    intro lw hsh hcol hnone
    rw [List.map_cons] at hnone ⊢
    rcases hstep : lw.removeOne w0.1 w0.2 v with e0 | lw'
    · simp only [Labware.removeMany, hstep] at hnone
      exact Option.noConfusion hnone
    · simp only [Labware.removeMany, hstep] at hnone ⊢
      have hok := removeOne_ok_elim hstep
      have hsh2 := removeOne_ok_shape hstep
      have hc0 : w0.2 = c := hcol w0 (List.mem_cons_self _ _)
      have hv : lw'.vols 0 c = lw.vols 0 c - v := by
        rw [hok]
        show upd2 lw.vols (lw.physRowOf w0.1) w0.2
            (lw.vols (lw.physRowOf w0.1) w0.2 - v) 0 c = lw.vols 0 c - v
        rw [physRowOf_shared hsh, hc0]
        exact upd2_self
      have hrec := ih lw' (by rw [hsh2.2.1, hsh2.2.2.2.1]; exact hsh)
        (fun w hwmem => hcol w (List.mem_cons_of_mem _ hwmem)) hnone
      rw [hrec, hv]
      simp only [List.length_cons]
      push_cast
      ring

/-- Claim C5: get_trough_wells returns exactly n addresses cycling round-robin
through the given virtual wells (address i is well i mod the well count), and
since all those addresses alias the one physical volume cell of the shared
reservoir, removing volume v through each of the n addresses decreases that
single shared volume by n*v in total. -/
theorem shared_wells_round_robin (n : Nat) (wells : List (Nat × Nat)) (lw : Labware)
    (c : Nat) (v : ℚ)
    (hw : wells ≠ []) (hcol : ∀ w ∈ wells, w.2 = c)
    (hsh : lw.physRows < lw.virtualRows)
    (hok : (Labware.removeMany lw
        ((get_trough_wells n wells).map (fun w => (w, v)))).2 = none) :
    (get_trough_wells n wells).length = n ∧
    (∀ i, i < n → (get_trough_wells n wells).getD i (0, 0)
        = wells.getD (i % wells.length) (0, 0)) ∧
    ((Labware.removeMany lw
        ((get_trough_wells n wells).map (fun w => (w, v)))).1).vols 0 c
      = lw.vols 0 c - (n : ℚ) * v := by
  refine ⟨get_trough_wells_length n wells, ?_, ?_⟩
  · intro i hi
    unfold get_trough_wells
    rw [List.getD_eq_getElem _ _ (by simpa using hi)]
    simp
  · have hmain := removeMany_shared_col v c (get_trough_wells n wells) lw hsh
      (fun w hwmem => hcol w (get_trough_wells_mem hw hwmem)) hok
    rw [hmain, get_trough_wells_length]

/-- Witness for claim C5 at the notebook instance: 11 addresses over the 8
virtual rows of the first trough column are A01..H01, A01, B01, C01, and
removing 100 through each leaves the shared volume at 20000 - 1100 = 18900. -/
theorem shared_wells_round_robin_witness :
    (wells8 ≠ [] ∧ (∀ w ∈ wells8, w.2 = 0) ∧ troughQ.physRows < troughQ.virtualRows) ∧
    get_trough_wells 11 wells8
      = [(0, 0), (1, 0), (2, 0), (3, 0), (4, 0), (5, 0), (6, 0), (7, 0),
         (0, 0), (1, 0), (2, 0)] ∧
    ((Labware.removeMany troughQ
        ((get_trough_wells 11 wells8).map (fun w => (w, (100 : ℚ))))).1).vols 0 0
      = troughQ.vols 0 0 - ((11 : ℕ) : ℚ) * 100 ∧
    ((Labware.removeMany troughQ
        ((get_trough_wells 11 wells8).map (fun w => (w, (100 : ℚ))))).1).vols 0 0
      = 18900 := by
  refine ⟨⟨by decide, by decide, by decide⟩, by decide, ?_,
    le_antisymm (by with_unfolding_all decide) (by with_unfolding_all decide)⟩
  have h := shared_wells_round_robin 11 wells8 troughQ 0 100
    (by decide) (by decide) (by decide) (by with_unfolding_all decide)
  exact (get_trough_wells_length 11 wells8) ▸ h.2.2

lemma updComp_ne {f : String → Nat → Nat → ℚ} {r c r' c' : Nat} {g : String → ℚ}
    (h : ¬ (r = r' ∧ c = c')) (k : String) : updComp f r c g k r' c' = f k r' c' := by
  unfold updComp
  by_cases h1 : r' = r
  · by_cases h2 : c' = c
    · exact absurd ⟨h1.symm, h2.symm⟩ h
    · simp [h1, h2]
  · simp [h1]

lemma wellPosition_congr {a b : Labware} (h : sameShape a b) (r c : Nat) :
    wellPosition a r c = wellPosition b r c := by
  unfold wellPosition
  rw [h.2.2.2.1]

lemma stepOne_ok_elim {ws : Nat} {st st' : TransferState} {p : TPair} {v : ℚ}
    (h : stepOne ws st p v = .ok st') :
    ∃ src' dst',
      st.src.removeOne p.srcR p.srcC v = .ok src' ∧
      st.dst.addOne p.dstR p.dstC v
        (fun k => st.src.comp k (st.src.physRowOf p.srcR) p.srcC) = .ok dst' ∧
      st' = ⟨src', dst',
        st.recs ++ [Rec.asp st.src.name (wellPosition st.src p.srcR p.srcC) v,
                    Rec.disp st.dst.name (wellPosition st.dst p.dstR p.dstC) v,
                    Rec.wash ws]⟩ := by
  unfold stepOne at h
  rcases h1 : st.src.removeOne p.srcR p.srcC v with e | src'
  · rw [h1] at h
    exact Except.noConfusion h
  · rw [h1] at h
    rcases h2 : st.dst.addOne p.dstR p.dstC v
        (fun k => st.src.comp k (st.src.physRowOf p.srcR) p.srcC) with e | dst'
    · rw [h2] at h
      exact Except.noConfusion h
    · rw [h2] at h
      injection h with h3
      exact ⟨src', dst', rfl, rfl, h3.symm⟩

lemma stepOne_props {ws : Nat} {st st' : TransferState} {p : TPair} {v : ℚ}
    {src0 dst0 : Labware}
    (h : stepOne ws st p v = .ok st')
    (hs : sameShape st.src src0) (hd : sameShape st.dst dst0) :
    st'.recs = st.recs ++ pairRecs src0 dst0 ws p v ∧
    sameShape st'.src src0 ∧ sameShape st'.dst dst0 ∧
    (∀ r c, ¬ (src0.physRowOf p.srcR = r ∧ p.srcC = c) →
      st'.src.vols r c = st.src.vols r c ∧
      ∀ k, st'.src.comp k r c = st.src.comp k r c) ∧
    (∀ r c, ¬ (dst0.physRowOf p.dstR = r ∧ p.dstC = c) →
      st'.dst.vols r c = st.dst.vols r c ∧
      ∀ k, st'.dst.comp k r c = st.dst.comp k r c) := by
  obtain ⟨src', dst', h1, h2, h3⟩ := stepOne_ok_elim h
  have hsrc := removeOne_ok_elim h1
  have hdst := (addOne_ok_elim h2).2
  have hprs : st.src.physRowOf = src0.physRowOf := sameShape_physRowOf hs
  have hprd : st.dst.physRowOf = dst0.physRowOf := sameShape_physRowOf hd
  subst h3
  refine ⟨?_, ?_, ?_, ?_, ?_⟩
  · show st.recs ++ _ = st.recs ++ pairRecs src0 dst0 ws p v
    unfold pairRecs
    rw [hs.1, hd.1, wellPosition_congr hs, wellPosition_congr hd]
  · exact sameShape_trans (removeOne_ok_shape h1) hs
  · exact sameShape_trans (addOne_ok_shape h2) hd
  · intro r c hne
    constructor
    · show src'.vols r c = st.src.vols r c
      rw [hsrc]
      exact upd2_ne (by rw [hprs]; exact hne)
    · intro k
      show src'.comp k r c = st.src.comp k r c
      rw [hsrc]
  · intro r c hne
    constructor
    · show dst'.vols r c = st.dst.vols r c
      rw [hdst]
      exact upd2_ne (by rw [hprd]; exact hne)
    · intro k
      show dst'.comp k r c = st.dst.comp k r c
      rw [hdst]
      exact updComp_ne (by rw [hprd]; exact hne) k

lemma runWave_props (src0 dst0 : Labware) (ws k : Nat) :
    ∀ (pws : List (TPair × List ℚ)) (st st' : TransferState),
      runWave ws k st pws = .ok st' →
      sameShape st.src src0 → sameShape st.dst dst0 →
      st'.recs = st.recs ++ waveRecs src0 dst0 ws k pws ∧
      sameShape st'.src src0 ∧ sameShape st'.dst dst0 ∧
      (∀ r c, srcUntouched src0 (pws.map (fun q => q.1)) r c →
        st'.src.vols r c = st.src.vols r c ∧
        ∀ kk, st'.src.comp kk r c = st.src.comp kk r c) ∧
      (∀ r c, dstUntouched dst0 (pws.map (fun q => q.1)) r c →
        st'.dst.vols r c = st.dst.vols r c ∧
        ∀ kk, st'.dst.comp kk r c = st.dst.comp kk r c) := by
  intro pws
  induction pws with
  | nil =>
    intro st st' h hs hd
    simp only [runWave] at h
    injection h with h2
    subst h2
    refine ⟨by simp [waveRecs], hs, hd, ?_, ?_⟩
    · exact fun r c _ => ⟨rfl, fun _ => rfl⟩
    · exact fun r c _ => ⟨rfl, fun _ => rfl⟩
  | cons q rest ih =>
    intro st st' h hs hd
    obtain ⟨p, steps⟩ := q
    simp only [runWave] at h
    by_cases hk : k < steps.length
    · rw [if_pos hk] at h
      rcases hstep : stepOne ws st p (steps.getD k 0) with e | st1
      · rw [hstep] at h
        exact Except.noConfusion h
      · rw [hstep] at h
        have hp := stepOne_props hstep hs hd
        have hrest := ih st1 st' h hp.2.1 hp.2.2.1
        refine ⟨?_, hrest.2.1, hrest.2.2.1, ?_, ?_⟩
        · rw [hrest.1, hp.1]
          simp only [waveRecs, if_pos hk, List.append_assoc]
        · intro r c hun
          have hhead := hp.2.2.2.1 r c
            (hun p (List.mem_cons_self _ _))
          have htail := hrest.2.2.2.1 r c
            (fun p2 hp2 => hun p2 (List.mem_cons_of_mem _ hp2))
          exact ⟨htail.1.trans hhead.1,
            fun kk => (htail.2 kk).trans (hhead.2 kk)⟩
        · intro r c hun
          have hhead := hp.2.2.2.2 r c
            (hun p (List.mem_cons_self _ _))
          have htail := hrest.2.2.2.2 r c
            (fun p2 hp2 => hun p2 (List.mem_cons_of_mem _ hp2))
          exact ⟨htail.1.trans hhead.1,
            fun kk => (htail.2 kk).trans (hhead.2 kk)⟩
    · rw [if_neg hk] at h
      have hrest := ih st st' h hs hd
      refine ⟨?_, hrest.2.1, hrest.2.2.1, ?_, ?_⟩
      · rw [hrest.1]
        simp only [waveRecs, if_neg hk, List.nil_append]
      · intro r c hun
        exact hrest.2.2.2.1 r c
          (fun p2 hp2 => hun p2 (List.mem_cons_of_mem _ hp2))
      · intro r c hun
        exact hrest.2.2.2.2 r c
          (fun p2 hp2 => hun p2 (List.mem_cons_of_mem _ hp2))

lemma runWavesFrom_props (src0 dst0 : Labware) (ws : Nat) (brk : Bool)
    (pws : List (TPair × List ℚ)) :
    ∀ (fuel k : Nat) (st st' : TransferState),
      runWavesFrom ws brk pws k fuel st = .ok st' →
      sameShape st.src src0 → sameShape st.dst dst0 →
      st'.recs = st.recs ++ wavesRecs src0 dst0 ws brk pws k fuel ∧
      sameShape st'.src src0 ∧ sameShape st'.dst dst0 ∧
      (∀ r c, srcUntouched src0 (pws.map (fun q => q.1)) r c →
        st'.src.vols r c = st.src.vols r c ∧
        ∀ kk, st'.src.comp kk r c = st.src.comp kk r c) ∧
      (∀ r c, dstUntouched dst0 (pws.map (fun q => q.1)) r c →
        st'.dst.vols r c = st.dst.vols r c ∧
        ∀ kk, st'.dst.comp kk r c = st.dst.comp kk r c) := by
  intro fuel
  induction fuel with
  | zero =>
    intro k st st' h hs hd
    simp only [runWavesFrom] at h
    injection h with h2
    subst h2
    refine ⟨by simp [wavesRecs], hs, hd, ?_, ?_⟩
    · exact fun r c _ => ⟨rfl, fun _ => rfl⟩
    · exact fun r c _ => ⟨rfl, fun _ => rfl⟩
  | succ n ih =>
    intro k st st' h hs hd
    simp only [runWavesFrom] at h
    rcases hw : runWave ws k st pws with e | st1
    · rw [hw] at h
      exact Except.noConfusion h
    · rw [hw] at h
      have h1 := runWave_props src0 dst0 ws k pws st st1 hw hs hd
      cases brk with
      | false =>
        simp only [Bool.false_eq_true, if_false] at h
        have h2 := ih (k + 1) st1 st' h h1.2.1 h1.2.2.1
        refine ⟨?_, h2.2.1, h2.2.2.1, ?_, ?_⟩
        · rw [h2.1, h1.1]
          simp only [wavesRecs, Bool.false_eq_true, if_false,
            List.append_nil, List.append_assoc]
        · intro r c hun
          have ha := h1.2.2.2.1 r c hun
          have hb := h2.2.2.2.1 r c hun
          exact ⟨hb.1.trans ha.1, fun kk => (hb.2 kk).trans (ha.2 kk)⟩
        · intro r c hun
          have ha := h1.2.2.2.2 r c hun
          have hb := h2.2.2.2.2 r c hun
          exact ⟨hb.1.trans ha.1, fun kk => (hb.2 kk).trans (ha.2 kk)⟩
      | true =>
        simp only [if_true] at h
        have hst2src : (TransferState.mk st1.src st1.dst (st1.recs ++ [Rec.brk])).src
            = st1.src := rfl
        have h2 := ih (k + 1) ⟨st1.src, st1.dst, st1.recs ++ [Rec.brk]⟩ st' h
          h1.2.1 h1.2.2.1
        refine ⟨?_, h2.2.1, h2.2.2.1, ?_, ?_⟩
        · rw [h2.1]
          show st1.recs ++ [Rec.brk] ++ _ = _
          rw [h1.1]
          simp only [wavesRecs, if_true, List.append_assoc]
        · intro r c hun
          have ha := h1.2.2.2.1 r c hun
          have hb := h2.2.2.2.1 r c hun
          exact ⟨hb.1.trans ha.1, fun kk => (hb.2 kk).trans (ha.2 kk)⟩
        · intro r c hun
          have ha := h1.2.2.2.2 r c hun
          have hb := h2.2.2.2.2 r c hun
          exact ⟨hb.1.trans ha.1, fun kk => (hb.2 kk).trans (ha.2 kk)⟩

lemma map_fst_steps (pairs : List TPair) (S : Nat) :
    ((pairs.map (fun p => (p, partitionVolume p.vol S))).map (fun q => q.1)) = pairs := by
  induction pairs with
  | nil => rfl
  | cons p rest ih =>
    simp only [List.map_cons]
    rw [ih]

lemma runBatch_props {src0 dst0 : Labware} {ws S : Nat} {pairs : List TPair}
    {st st' : TransferState}
    (h : runBatch ws S st pairs = .ok st')
    (hs : sameShape st.src src0) (hd : sameShape st.dst dst0) :
    st'.recs = st.recs ++ batchRecs src0 dst0 ws S pairs ∧
    sameShape st'.src src0 ∧ sameShape st'.dst dst0 ∧
    (∀ r c, srcUntouched src0 pairs r c →
      st'.src.vols r c = st.src.vols r c ∧
      ∀ kk, st'.src.comp kk r c = st.src.comp kk r c) ∧
    (∀ r c, dstUntouched dst0 pairs r c →
      st'.dst.vols r c = st.dst.vols r c ∧
      ∀ kk, st'.dst.comp kk r c = st.dst.comp kk r c) := by
  unfold runBatch at h
  have hp := runWavesFrom_props src0 dst0 ws
    (decide (2 ≤ maxSteps (pairs.map (fun p => (p, partitionVolume p.vol S)))))
    (pairs.map (fun p => (p, partitionVolume p.vol S)))
    (maxSteps (pairs.map (fun p => (p, partitionVolume p.vol S)))) 0 st st' h hs hd
  rw [map_fst_steps] at hp
  exact ⟨hp.1, hp.2.1, hp.2.2.1, hp.2.2.2.1, hp.2.2.2.2⟩

lemma runBatches_props {src0 dst0 : Labware} {ws S : Nat} :
    ∀ (bs : List (List TPair)) (st st' : TransferState),
      runBatches ws S st bs = .ok st' →
      sameShape st.src src0 → sameShape st.dst dst0 →
      st'.recs = st.recs ++ batchesRecs src0 dst0 ws S bs ∧
      sameShape st'.src src0 ∧ sameShape st'.dst dst0 ∧
      (∀ r c, (∀ b ∈ bs, srcUntouched src0 b r c) →
        st'.src.vols r c = st.src.vols r c ∧
        ∀ kk, st'.src.comp kk r c = st.src.comp kk r c) ∧
      (∀ r c, (∀ b ∈ bs, dstUntouched dst0 b r c) →
        st'.dst.vols r c = st.dst.vols r c ∧
        ∀ kk, st'.dst.comp kk r c = st.dst.comp kk r c) := by
  intro bs
  induction bs with
  | nil =>
    intro st st' h hs hd
    simp only [runBatches] at h
    injection h with h2
    subst h2
    refine ⟨by simp [batchesRecs], hs, hd, ?_, ?_⟩
    · exact fun r c _ => ⟨rfl, fun _ => rfl⟩
    · exact fun r c _ => ⟨rfl, fun _ => rfl⟩
  | cons b rest ih =>
    intro st st' h hs hd
    simp only [runBatches] at h
    rcases hb : runBatch ws S st b with e | st1
    · rw [hb] at h
      exact Except.noConfusion h
    · rw [hb] at h
      have h1 := runBatch_props hb hs hd
      have h2 := ih st1 st' h h1.2.1 h1.2.2.1
      refine ⟨?_, h2.2.1, h2.2.2.1, ?_, ?_⟩
      · rw [h2.1, h1.1]
        simp only [batchesRecs, List.append_assoc]
      · intro r c hun
        have ha := h1.2.2.2.1 r c (hun b (List.mem_cons_self _ _))
        have hbt := h2.2.2.2.1 r c (fun b2 hb2 => hun b2 (List.mem_cons_of_mem _ hb2))
        exact ⟨hbt.1.trans ha.1, fun kk => (hbt.2 kk).trans (ha.2 kk)⟩
      · intro r c hun
        have ha := h1.2.2.2.2 r c (hun b (List.mem_cons_self _ _))
        have hbt := h2.2.2.2.2 r c (fun b2 hb2 => hun b2 (List.mem_cons_of_mem _ hb2))
        exact ⟨hbt.1.trans ha.1, fun kk => (hbt.2 kk).trans (ha.2 kk)⟩

lemma mem_batchesOf_subset {src0 : Labware} {pairs : List TPair} {b : List TPair}
    (hb : b ∈ batchesOf src0 pairs) : ∀ p ∈ b, p ∈ pairs := by
  unfold batchesOf at hb
  rcases List.mem_map.mp hb with ⟨key, _, rfl⟩
  intro p hp
  exact List.mem_of_mem_filter hp

lemma transfer_props {src dst : Labware} {pairs : List TPair} {S ws : Nat}
    {lbl : String} {st : TransferState}
    (h : transfer src dst pairs S ws lbl = .ok st) :
    st.recs = Rec.comment lbl ::
      batchesRecs src dst ws S
        (batchesOf src (pairs.filter (fun p => !decide (p.vol = 0)))) ∧
    sameShape st.src src ∧ sameShape st.dst dst ∧
    (∀ r c, srcUntouched src (pairs.filter (fun p => !decide (p.vol = 0))) r c →
      st.src.vols r c = src.vols r c ∧
      ∀ kk, st.src.comp kk r c = src.comp kk r c) ∧
    (∀ r c, dstUntouched dst (pairs.filter (fun p => !decide (p.vol = 0))) r c →
      st.dst.vols r c = dst.vols r c ∧
      ∀ kk, st.dst.comp kk r c = dst.comp kk r c) := by
  unfold transfer at h
  by_cases hneg : pairs.any (fun p => decide (p.vol < 0))
  · rw [if_pos hneg] at h
    exact Except.noConfusion h
  · rw [if_neg hneg] at h
    rcases hrb : runBatches ws S
        (TransferState.mk src dst [Rec.comment lbl])
        (batchesOf src (pairs.filter (fun p => !decide (p.vol = 0)))) with e | st1
    · rw [hrb] at h
      exact Except.noConfusion h
    · rw [hrb] at h
      injection h with h2
      subst h2
      have hp := runBatches_props _ _ _ hrb (sameShape_refl src) (sameShape_refl dst)
      refine ⟨?_, hp.2.1, hp.2.2.1, ?_, ?_⟩
      · rw [hp.1]
        rfl
      · intro r c hun
        exact hp.2.2.2.1 r c
          (fun b hb => fun p hpb => hun p (mem_batchesOf_subset hb p hpb))
      · intro r c hun
        exact hp.2.2.2.2 r c
          (fun b hb => fun p hpb => hun p (mem_batchesOf_subset hb p hpb))

lemma asp_mem_pairRecs {nm : String} {pos : Nat} {v : ℚ} {p : TPair} {v' : ℚ}
    {src0 dst0 : Labware} {ws : Nat}
    (h : Rec.asp nm pos v ∈ pairRecs src0 dst0 ws p v') :
    nm = src0.name ∧ pos = wellPosition src0 p.srcR p.srcC ∧ v = v' := by
  simp only [pairRecs, List.mem_cons, List.mem_singleton] at h
  rcases h with h | h | h | h
  · injection h with h1 h2 h3
    exact ⟨h1, h2, h3⟩
  · exact Rec.noConfusion h
  · exact Rec.noConfusion h
  · exact absurd h (List.not_mem_nil _)

lemma disp_mem_pairRecs {nm : String} {pos : Nat} {v : ℚ} {p : TPair} {v' : ℚ}
    {src0 dst0 : Labware} {ws : Nat}
    (h : Rec.disp nm pos v ∈ pairRecs src0 dst0 ws p v') :
    nm = dst0.name ∧ pos = wellPosition dst0 p.dstR p.dstC ∧ v = v' := by
  simp only [pairRecs, List.mem_cons, List.mem_singleton] at h
  rcases h with h | h | h | h
  · exact Rec.noConfusion h
  · injection h with h1 h2 h3
    exact ⟨h1, h2, h3⟩
  · exact Rec.noConfusion h
  · exact absurd h (List.not_mem_nil _)

lemma asp_mem_waveRecs {nm : String} {pos : Nat} {v : ℚ}
    {src0 dst0 : Labware} {ws k : Nat} :
    ∀ {pws : List (TPair × List ℚ)},
      Rec.asp nm pos v ∈ waveRecs src0 dst0 ws k pws →
      ∃ q ∈ pws, nm = src0.name ∧ pos = wellPosition src0 q.1.srcR q.1.srcC := by
  intro pws
  induction pws with
  | nil =>
    intro h
    exact absurd h (List.not_mem_nil _)
  | cons q rest ih =>
    intro h
    simp only [waveRecs] at h
    rcases List.mem_append.mp h with h | h
    · by_cases hk : k < q.2.length
      · rw [if_pos hk] at h
        have := asp_mem_pairRecs h
        exact ⟨q, List.mem_cons_self _ _, this.1, this.2.1⟩
      · rw [if_neg hk] at h
        exact absurd h (List.not_mem_nil _)
    · obtain ⟨q2, hq2, hr⟩ := ih h
      exact ⟨q2, List.mem_cons_of_mem _ hq2, hr⟩

lemma disp_mem_waveRecs {nm : String} {pos : Nat} {v : ℚ}
    {src0 dst0 : Labware} {ws k : Nat} :
    ∀ {pws : List (TPair × List ℚ)},
      Rec.disp nm pos v ∈ waveRecs src0 dst0 ws k pws →
      ∃ q ∈ pws, nm = dst0.name ∧ pos = wellPosition dst0 q.1.dstR q.1.dstC := by
  intro pws
  induction pws with
  | nil =>
    intro h
    exact absurd h (List.not_mem_nil _)
  | cons q rest ih =>
    intro h
    simp only [waveRecs] at h
    rcases List.mem_append.mp h with h | h
    · by_cases hk : k < q.2.length
      · rw [if_pos hk] at h
        have := disp_mem_pairRecs h
        exact ⟨q, List.mem_cons_self _ _, this.1, this.2.1⟩
      · rw [if_neg hk] at h
        exact absurd h (List.not_mem_nil _)
    · obtain ⟨q2, hq2, hr⟩ := ih h
      exact ⟨q2, List.mem_cons_of_mem _ hq2, hr⟩

lemma asp_mem_wavesRecs {nm : String} {pos : Nat} {v : ℚ}
    {src0 dst0 : Labware} {ws : Nat} {brk : Bool} {pws : List (TPair × List ℚ)} :
    ∀ {fuel k : Nat},
      Rec.asp nm pos v ∈ wavesRecs src0 dst0 ws brk pws k fuel →
      ∃ q ∈ pws, nm = src0.name ∧ pos = wellPosition src0 q.1.srcR q.1.srcC := by
  intro fuel
  induction fuel with
  | zero =>
    intro k h
    exact absurd h (List.not_mem_nil _)
  | succ n ih =>
    intro k h
    simp only [wavesRecs] at h
    rcases List.mem_append.mp h with h | h
    · rcases List.mem_append.mp h with h | h
      · exact asp_mem_waveRecs h
      · cases brk with
        | true =>
          simp only [if_true, List.mem_singleton] at h
          exact Rec.noConfusion h
        | false =>
          simp only [Bool.false_eq_true, if_false] at h
          exact absurd h (List.not_mem_nil _)
    · exact ih h

lemma disp_mem_wavesRecs {nm : String} {pos : Nat} {v : ℚ}
    {src0 dst0 : Labware} {ws : Nat} {brk : Bool} {pws : List (TPair × List ℚ)} :
    ∀ {fuel k : Nat},
      Rec.disp nm pos v ∈ wavesRecs src0 dst0 ws brk pws k fuel →
      ∃ q ∈ pws, nm = dst0.name ∧ pos = wellPosition dst0 q.1.dstR q.1.dstC := by
  intro fuel
  induction fuel with
  | zero =>
    intro k h
    exact absurd h (List.not_mem_nil _)
  | succ n ih =>
    intro k h
    simp only [wavesRecs] at h
    rcases List.mem_append.mp h with h | h
    · rcases List.mem_append.mp h with h | h
      · exact disp_mem_waveRecs h
      · cases brk with
        | true =>
          simp only [if_true, List.mem_singleton] at h
          exact Rec.noConfusion h
        | false =>
          simp only [Bool.false_eq_true, if_false] at h
          exact absurd h (List.not_mem_nil _)
    · exact ih h

lemma asp_mem_batchRecs {nm : String} {pos : Nat} {v : ℚ}
    {src0 dst0 : Labware} {ws S : Nat} {pairs : List TPair}
    (h : Rec.asp nm pos v ∈ batchRecs src0 dst0 ws S pairs) :
    ∃ p ∈ pairs, nm = src0.name ∧ pos = wellPosition src0 p.srcR p.srcC := by
  unfold batchRecs at h
  obtain ⟨q, hq, hr⟩ := asp_mem_wavesRecs h
  rcases List.mem_map.mp hq with ⟨p, hp, rfl⟩
  exact ⟨p, hp, hr⟩

lemma disp_mem_batchRecs {nm : String} {pos : Nat} {v : ℚ}
    {src0 dst0 : Labware} {ws S : Nat} {pairs : List TPair}
    (h : Rec.disp nm pos v ∈ batchRecs src0 dst0 ws S pairs) :
    ∃ p ∈ pairs, nm = dst0.name ∧ pos = wellPosition dst0 p.dstR p.dstC := by
  unfold batchRecs at h
  obtain ⟨q, hq, hr⟩ := disp_mem_wavesRecs h
  rcases List.mem_map.mp hq with ⟨p, hp, rfl⟩
  exact ⟨p, hp, hr⟩

lemma asp_mem_batchesRecs {nm : String} {pos : Nat} {v : ℚ}
    {src0 dst0 : Labware} {ws S : Nat} :
    ∀ {bs : List (List TPair)},
      Rec.asp nm pos v ∈ batchesRecs src0 dst0 ws S bs →
      ∃ b ∈ bs, ∃ p ∈ b, nm = src0.name ∧ pos = wellPosition src0 p.srcR p.srcC := by
  intro bs
  induction bs with
  | nil =>
    intro h
    exact absurd h (List.not_mem_nil _)
  | cons b rest ih =>
    intro h
    simp only [batchesRecs] at h
    rcases List.mem_append.mp h with h | h
    · obtain ⟨p, hp, hr⟩ := asp_mem_batchRecs h
      exact ⟨b, List.mem_cons_self _ _, p, hp, hr⟩
    · obtain ⟨b2, hb2, hrest⟩ := ih h
      exact ⟨b2, List.mem_cons_of_mem _ hb2, hrest⟩

lemma disp_mem_batchesRecs {nm : String} {pos : Nat} {v : ℚ}
    {src0 dst0 : Labware} {ws S : Nat} :
    ∀ {bs : List (List TPair)},
      Rec.disp nm pos v ∈ batchesRecs src0 dst0 ws S bs →
      ∃ b ∈ bs, ∃ p ∈ b, nm = dst0.name ∧ pos = wellPosition dst0 p.dstR p.dstC := by
  intro bs
  induction bs with
  | nil =>
    intro h
    exact absurd h (List.not_mem_nil _)
  | cons b rest ih =>
    intro h
    simp only [batchesRecs] at h
    rcases List.mem_append.mp h with h | h
    · obtain ⟨p, hp, hr⟩ := disp_mem_batchRecs h
      exact ⟨b, List.mem_cons_self _ _, p, hp, hr⟩
    · obtain ⟨b2, hb2, hrest⟩ := ih h
      exact ⟨b2, List.mem_cons_of_mem _ hb2, hrest⟩

lemma count_brk_pairRecs (src0 dst0 : Labware) (ws : Nat) (p : TPair) (v : ℚ) :
    (pairRecs src0 dst0 ws p v).count Rec.brk = 0 := by
  simp [pairRecs, List.count_cons]

lemma count_brk_waveRecs (src0 dst0 : Labware) (ws k : Nat) :
    ∀ (pws : List (TPair × List ℚ)),
      (waveRecs src0 dst0 ws k pws).count Rec.brk = 0 := by
  intro pws
  induction pws with
  | nil => rfl
  | cons q rest ih =>
    simp only [waveRecs, List.count_append, ih]
    by_cases hk : k < q.2.length
    · rw [if_pos hk, count_brk_pairRecs]
    · rw [if_neg hk]
      rfl

lemma count_brk_wavesRecs (src0 dst0 : Labware) (ws : Nat)
    (pws : List (TPair × List ℚ)) :
    ∀ (fuel k : Nat),
      (wavesRecs src0 dst0 ws true pws k fuel).count Rec.brk = fuel := by
  intro fuel
  induction fuel with
  | zero => intro k; rfl
  | succ n ih =>
    intro k
    simp only [wavesRecs, if_true, List.count_append, count_brk_waveRecs, ih]
    simp [List.count_singleton]
    omega

lemma waveRecs_filter_bind (src0 dst0 : Labware) (ws k : Nat) :
    ∀ (pws : List (TPair × List ℚ)),
      waveRecs src0 dst0 ws k pws
        = (pws.filter (fun q => decide (k < q.2.length))).flatMap
            (fun q => pairRecs src0 dst0 ws q.1 (q.2.getD k 0)) := by
  intro pws
  induction pws with
  | nil => rfl
  | cons q rest ih =>
    simp only [waveRecs, List.filter_cons]
    by_cases hk : k < q.2.length
    · rw [if_pos hk, if_pos (by exact decide_eq_true hk)]
      simp only [List.flatMap_cons, ih]
    · rw [if_neg hk, if_neg (by simpa using hk)]
      simp only [List.nil_append, ih]

/-- Claim C6, amended: for every emitted Aspirate and Dispense record, the
position field is the 1-based column-major linear index of the targeted well
into the container's addressable (virtual) grid: a well at virtual row r,
column c of a container with R_v virtual rows gets position r + R_v*c + 1.
For plate-like containers the virtual grid equals the physical grid, so the
physical-grid formula holds there; for shared-reservoir containers the
virtual row and the virtual row count are used instead of the physical ones. -/
theorem emitted_positions (src dst : Labware) (pairs : List TPair) (S ws : Nat)
    (lbl : String)
    (hok : resOk (transfer src dst pairs S ws lbl) = true) :
    (∀ nm pos v, Rec.asp nm pos v ∈ recsOf (transfer src dst pairs S ws lbl) →
      ∃ p ∈ pairs, ¬ p.vol = 0 ∧ nm = src.name ∧
        pos = p.srcR + src.virtualRows * p.srcC + 1) ∧
    (∀ nm pos v, Rec.disp nm pos v ∈ recsOf (transfer src dst pairs S ws lbl) →
      ∃ p ∈ pairs, ¬ p.vol = 0 ∧ nm = dst.name ∧
        pos = p.dstR + dst.virtualRows * p.dstC + 1) := by
  rcases hres : transfer src dst pairs S ws lbl with e | st
  · rw [hres] at hok
    exact Bool.noConfusion hok
  · have hp := transfer_props hres
    constructor
    · intro nm pos v hmem
      simp only [recsOf] at hmem
      rw [hp.1] at hmem
      rcases List.mem_cons.mp hmem with hmem | hmem
      · exact Rec.noConfusion hmem
      · obtain ⟨b, hb, p, hpb, hn, hpos⟩ := asp_mem_batchesRecs hmem
        have hpp := mem_batchesOf_subset hb p hpb
        have hf := List.mem_filter.mp hpp
        refine ⟨p, hf.1, ?_, hn, hpos⟩
        intro hv0
        rw [hv0] at hf
        simp at hf
    · intro nm pos v hmem
      simp only [recsOf] at hmem
      rw [hp.1] at hmem
      rcases List.mem_cons.mp hmem with hmem | hmem
      · exact Rec.noConfusion hmem
      · obtain ⟨b, hb, p, hpb, hn, hpos⟩ := disp_mem_batchesRecs hmem
        have hpp := mem_batchesOf_subset hb p hpb
        have hf := List.mem_filter.mp hpp
        refine ⟨p, hf.1, ?_, hn, hpos⟩
        intro hv0
        rw [hv0] at hf
        simp at hf

/-- Witness for the amended claim C6 on a concrete plate-to-plate transfer. -/
theorem emitted_positions_witness :
    resOk (transfer srcS dstS [⟨1, 0, 1, 0, 500⟩] 950 1 "w") = true ∧
    ((∀ nm pos v, Rec.asp nm pos v ∈ recsOf (transfer srcS dstS [⟨1, 0, 1, 0, 500⟩] 950 1 "w") →
      ∃ p ∈ [(⟨1, 0, 1, 0, 500⟩ : TPair)], ¬ p.vol = 0 ∧ nm = srcS.name ∧
        pos = p.srcR + srcS.virtualRows * p.srcC + 1) ∧
    (∀ nm pos v, Rec.disp nm pos v ∈ recsOf (transfer srcS dstS [⟨1, 0, 1, 0, 500⟩] 950 1 "w") →
      ∃ p ∈ [(⟨1, 0, 1, 0, 500⟩ : TPair)], ¬ p.vol = 0 ∧ nm = dstS.name ∧
        pos = p.dstR + dstS.virtualRows * p.dstC + 1)) := by
  refine ⟨by with_unfolding_all decide, ?_⟩
  exact emitted_positions srcS dstS [⟨1, 0, 1, 0, 500⟩] 950 1 "w"
    (by with_unfolding_all decide)

/-- Counterexample for claim C6: on a shared-reservoir container with 8
virtual rows and a single physical row, aspirating from virtual row 1 emits
position 2, while the claimed physical-grid formula r + R*c + 1 (physical row
r = 0, physical row count R = 1) gives 1. -/
theorem emitted_positions_cex :
    recsOf (transfer troughS dstS [⟨1, 0, 0, 0, 100⟩] 950 1 "y")
      = [Rec.comment "y", Rec.asp "t" 2 100, Rec.disp "d" 1 100, Rec.wash 1] ∧
    troughS.physRows = 1 ∧
    troughS.physRowOf 1 = 0 ∧
    ¬ ((2 : Nat) = 0 + 1 * 0 + 1) := by
  refine ⟨by with_unfolding_all decide, by decide, by decide, by decide⟩

/-- Claim C7, amended: within one partition batch whose pairs split into
differing step counts n_i, the records form synchronized waves: wave k
contains one aspirate+dispense+wash group for exactly those pairs with at
least k+1 steps (a pair never appears in a wave past its own step count), the
number of waves equals the maximum n_i over the batch, and one batch-boundary
Break record is emitted after every wave (so the number of Break records
equals the wave count, not one). -/
theorem wave_synchronization (src dst : Labware) (pairs : List TPair) (S ws : Nat)
    (hok : resOk (batchResult src dst ws S pairs) = true)
    (hsplit : 2 ≤ maxSteps (pairs.map (fun p => (p, partitionVolume p.vol S)))) :
    batchRecsOf src dst ws S pairs
      = wavesRecs src dst ws true (pairs.map (fun p => (p, partitionVolume p.vol S))) 0
          (maxSteps (pairs.map (fun p => (p, partitionVolume p.vol S)))) ∧
    (∀ k, waveRecs src dst ws k (pairs.map (fun p => (p, partitionVolume p.vol S)))
      = ((pairs.map (fun p => (p, partitionVolume p.vol S))).filter
            (fun q => decide (k < q.2.length))).flatMap
          (fun q => pairRecs src dst ws q.1 (q.2.getD k 0))) ∧
    (batchRecsOf src dst ws S pairs).count Rec.brk
      = maxSteps (pairs.map (fun p => (p, partitionVolume p.vol S))) := by
  have hrecs : batchRecsOf src dst ws S pairs
      = wavesRecs src dst ws true (pairs.map (fun p => (p, partitionVolume p.vol S))) 0
          (maxSteps (pairs.map (fun p => (p, partitionVolume p.vol S)))) := by
    unfold batchRecsOf
    rcases hres : batchResult src dst ws S pairs with e | st
    · rw [hres] at hok
      exact Bool.noConfusion hok
    · unfold batchResult at hres
      have hp := runBatch_props hres (sameShape_refl src) (sameShape_refl dst)
      have h1 := hp.1
      simp only [List.nil_append] at h1
      show st.recs = _
      rw [h1]
      unfold batchRecs
      rw [decide_eq_true hsplit]
  refine ⟨hrecs, fun k => waveRecs_filter_bind src dst ws k _, ?_⟩
  rw [hrecs]
  exact count_brk_wavesRecs src dst ws _ _ 0

/-- Witness for the amended claim C7 on a batch with step counts 1 and 2. -/
theorem wave_synchronization_witness :
    (resOk (batchResult srcS dstS 1 950 [⟨0, 0, 0, 0, 500⟩, ⟨1, 0, 1, 0, 1000⟩]) = true ∧
      2 ≤ maxSteps ([⟨0, 0, 0, 0, 500⟩, ⟨1, 0, 1, 0, 1000⟩].map
        (fun p => (p, partitionVolume p.vol 950)))) ∧
    (batchRecsOf srcS dstS 1 950 [⟨0, 0, 0, 0, 500⟩, ⟨1, 0, 1, 0, 1000⟩]).count Rec.brk
      = maxSteps ([⟨0, 0, 0, 0, 500⟩, ⟨1, 0, 1, 0, 1000⟩].map
        (fun p => (p, partitionVolume p.vol 950))) := by
  refine ⟨⟨by with_unfolding_all decide, by with_unfolding_all decide⟩, ?_⟩
  exact (wave_synchronization srcS dstS [⟨0, 0, 0, 0, 500⟩, ⟨1, 0, 1, 0, 1000⟩] 950 1
    (by with_unfolding_all decide) (by with_unfolding_all decide)).2.2

/-- Counterexample for claim C7: a batch of two pairs with step counts 1 and
2 emits two waves and a Break record after each of them, so two Breaks in
total, not exactly one. -/
theorem wave_break_cex :
    batchRecsOf srcS dstS 1 950 [⟨0, 0, 0, 0, 500⟩, ⟨1, 0, 1, 0, 1000⟩]
      = [Rec.asp "s" 1 500, Rec.disp "d" 1 500, Rec.wash 1,
         Rec.asp "s" 2 500, Rec.disp "d" 2 500, Rec.wash 1, Rec.brk,
         Rec.asp "s" 2 500, Rec.disp "d" 2 500, Rec.wash 1, Rec.brk] ∧
    (batchRecsOf srcS dstS 1 950 [⟨0, 0, 0, 0, 500⟩, ⟨1, 0, 1, 0, 1000⟩]).count Rec.brk = 2 ∧
    ¬ ((2 : Nat) = 1) := by
  refine ⟨by with_unfolding_all decide, by with_unfolding_all decide, by decide⟩

/-- Claim C8, amended: any requested pair volume that is negative causes the
transfer call to fail with InvalidVolume; a zero volume does not fail, the
pair is dropped as a no-op. -/
theorem negative_volume_invalid (src dst : Labware) (pairs : List TPair)
    (S ws : Nat) (lbl : String) (p : TPair) (hp : p ∈ pairs) (hneg : p.vol < 0) :
    transfer src dst pairs S ws lbl = .error .invalidVolume := by
  unfold transfer
  rw [if_pos (List.any_eq_true.mpr ⟨p, hp, decide_eq_true hneg⟩)]

/-- Witness for the amended claim C8: a transfer with volume -5 fails with
InvalidVolume. -/
theorem negative_volume_invalid_witness :
    ((⟨0, 0, 0, 0, -5⟩ : TPair) ∈ [(⟨0, 0, 0, 0, -5⟩ : TPair)] ∧
      (⟨0, 0, 0, 0, -5⟩ : TPair).vol < 0) ∧
    transfer srcS dstS [⟨0, 0, 0, 0, -5⟩] 950 1 "w" = .error .invalidVolume := by
  refine ⟨⟨List.mem_singleton.mpr rfl, by with_unfolding_all decide⟩, ?_⟩
  exact negative_volume_invalid srcS dstS [⟨0, 0, 0, 0, -5⟩] 950 1 "w" ⟨0, 0, 0, 0, -5⟩
    (List.mem_singleton.mpr rfl) (by with_unfolding_all decide)

/-- Counterexample for claim C8: a transfer whose pair list contains a
zero-volume pair succeeds; zero volumes do not fail with InvalidVolume. -/
theorem zero_volume_not_invalid_cex :
    (([⟨0, 0, 0, 0, 0⟩, ⟨1, 0, 1, 0, 500⟩] : List TPair).any
        (fun p => decide (p.vol = 0)) = true) ∧
    resOk (transfer srcS dstS [⟨0, 0, 0, 0, 0⟩, ⟨1, 0, 1, 0, 500⟩] 950 1 "x") = true := by
  refine ⟨by with_unfolding_all decide, by with_unfolding_all decide⟩

lemma filter_nonzero_drop {pre post : List TPair} {q : TPair} (hq : q.vol = 0) :
    (pre ++ q :: post).filter (fun p => !decide (p.vol = 0))
      = (pre ++ post).filter (fun p => !decide (p.vol = 0)) := by
  have hq2 : (!decide (q.vol = 0)) = false := by
    rw [hq, decide_eq_true (Eq.refl (0 : ℚ))]
    rfl
  simp only [List.filter_append, List.filter_cons, hq2]
  rfl

lemma mem_filter_nonzero_split {pre post : List TPair} {q p : TPair} (hq : q.vol = 0)
    (hp : p ∈ (pre ++ q :: post).filter (fun p => !decide (p.vol = 0))) :
    p ∈ pre ++ post ∧ ¬ p.vol = 0 := by
  have hf := List.mem_filter.mp hp
  have hv : ¬ p.vol = 0 := by
    intro hv0
    rw [hv0] at hf
    simp at hf
  refine ⟨?_, hv⟩
  rcases List.mem_append.mp hf.1 with h | h
  · exact List.mem_append.mpr (Or.inl h)
  · rcases List.mem_cons.mp h with rfl | h
    · exact absurd hq hv
    · exact List.mem_append.mpr (Or.inr h)

/-- Claim C9: a zero-volume pair is dropped before emission: the call behaves
exactly as the same call without that pair, no aspirate or dispense record is
emitted at its wells (when no other pair shares them), its source and
destination wells keep their volumes and compositions, and all other nonzero
pairs of the call are processed normally. -/
theorem zero_volume_pair_dropped (src dst : Labware) (pre post : List TPair)
    (q : TPair) (S ws : Nat) (lbl : String) (hq : q.vol = 0) :
    transfer src dst (pre ++ q :: post) S ws lbl
      = transfer src dst (pre ++ post) S ws lbl ∧
    (resOk (transfer src dst (pre ++ q :: post) S ws lbl) = true →
      (∀ p ∈ pre ++ post, ¬ p.vol = 0 →
          ¬ (src.physRowOf p.srcR = src.physRowOf q.srcR ∧ p.srcC = q.srcC)) →
      srcVolAt (transfer src dst (pre ++ q :: post) S ws lbl)
          (src.physRowOf q.srcR) q.srcC
        = some (src.vols (src.physRowOf q.srcR) q.srcC) ∧
      (∀ k, srcCompAt (transfer src dst (pre ++ q :: post) S ws lbl) k
          (src.physRowOf q.srcR) q.srcC
        = some (src.comp k (src.physRowOf q.srcR) q.srcC))) ∧
    (resOk (transfer src dst (pre ++ q :: post) S ws lbl) = true →
      (∀ p ∈ pre ++ post, ¬ p.vol = 0 →
          ¬ (dst.physRowOf p.dstR = dst.physRowOf q.dstR ∧ p.dstC = q.dstC)) →
      dstVolAt (transfer src dst (pre ++ q :: post) S ws lbl)
          (dst.physRowOf q.dstR) q.dstC
        = some (dst.vols (dst.physRowOf q.dstR) q.dstC) ∧
      (∀ k, dstCompAt (transfer src dst (pre ++ q :: post) S ws lbl) k
          (dst.physRowOf q.dstR) q.dstC
        = some (dst.comp k (dst.physRowOf q.dstR) q.dstC))) ∧
    (resOk (transfer src dst (pre ++ q :: post) S ws lbl) = true →
      (∀ p ∈ pre ++ post, ¬ p.vol = 0 →
          wellPosition src p.srcR p.srcC ≠ wellPosition src q.srcR q.srcC) →
      ∀ nm v, Rec.asp nm (wellPosition src q.srcR q.srcC) v
        ∉ recsOf (transfer src dst (pre ++ q :: post) S ws lbl)) ∧
    (resOk (transfer src dst (pre ++ q :: post) S ws lbl) = true →
      (∀ p ∈ pre ++ post, ¬ p.vol = 0 →
          wellPosition dst p.dstR p.dstC ≠ wellPosition dst q.dstR q.dstC) →
      ∀ nm v, Rec.disp nm (wellPosition dst q.dstR q.dstC) v
        ∉ recsOf (transfer src dst (pre ++ q :: post) S ws lbl)) := by
  have hq1 : (decide (q.vol < 0)) = false := by
    apply decide_eq_false
    rw [hq]
    exact lt_irrefl 0
  have hcall : transfer src dst (pre ++ q :: post) S ws lbl
      = transfer src dst (pre ++ post) S ws lbl := by
    unfold transfer
    have hany : (pre ++ q :: post).any (fun p => decide (p.vol < 0))
        = (pre ++ post).any (fun p => decide (p.vol < 0)) := by
      simp only [List.any_append, List.any_cons, hq1, Bool.false_or]
    rw [hany, filter_nonzero_drop hq]
  refine ⟨hcall, ?_, ?_, ?_, ?_⟩
  · intro hok hdist
    rcases hres : transfer src dst (pre ++ q :: post) S ws lbl with e | st
    · rw [hres] at hok
      exact Bool.noConfusion hok
    · have hp := transfer_props hres
      have hun : srcUntouched src
          ((pre ++ q :: post).filter (fun p => !decide (p.vol = 0)))
          (src.physRowOf q.srcR) q.srcC := by
        intro p hpmem
        obtain ⟨hpm, hpv⟩ := mem_filter_nonzero_split hq hpmem
        exact hdist p hpm hpv
      have hframe := hp.2.2.2.1 (src.physRowOf q.srcR) q.srcC hun
      constructor
      · simp only [srcVolAt]
        rw [hframe.1]
      · intro k
        simp only [srcCompAt]
        rw [hframe.2 k]
  · intro hok hdist
    rcases hres : transfer src dst (pre ++ q :: post) S ws lbl with e | st
    · rw [hres] at hok
      exact Bool.noConfusion hok
    · have hp := transfer_props hres
      have hun : dstUntouched dst
          ((pre ++ q :: post).filter (fun p => !decide (p.vol = 0)))
          (dst.physRowOf q.dstR) q.dstC := by
        intro p hpmem
        obtain ⟨hpm, hpv⟩ := mem_filter_nonzero_split hq hpmem
        exact hdist p hpm hpv
      have hframe := hp.2.2.2.2 (dst.physRowOf q.dstR) q.dstC hun
      constructor
      · simp only [dstVolAt]
        rw [hframe.1]
      · intro k
        simp only [dstCompAt]
        rw [hframe.2 k]
  · intro hok hdist nm v hmem
    rcases hres : transfer src dst (pre ++ q :: post) S ws lbl with e | st
    · rw [hres] at hok
      exact Bool.noConfusion hok
    · have hp := transfer_props hres
      rw [hres] at hmem
      simp only [recsOf] at hmem
      rw [hp.1] at hmem
      rcases List.mem_cons.mp hmem with hmem | hmem
      · exact Rec.noConfusion hmem
      · obtain ⟨b, hb, p, hpb, _, hpos⟩ := asp_mem_batchesRecs hmem
        have hpp := mem_batchesOf_subset hb p hpb
        obtain ⟨hpm, hpv⟩ := mem_filter_nonzero_split hq hpp
        exact hdist p hpm hpv hpos.symm
  · intro hok hdist nm v hmem
    rcases hres : transfer src dst (pre ++ q :: post) S ws lbl with e | st
    · rw [hres] at hok
      exact Bool.noConfusion hok
    · have hp := transfer_props hres
      rw [hres] at hmem
      simp only [recsOf] at hmem
      rw [hp.1] at hmem
      rcases List.mem_cons.mp hmem with hmem | hmem
      · exact Rec.noConfusion hmem
      · obtain ⟨b, hb, p, hpb, _, hpos⟩ := disp_mem_batchesRecs hmem
        have hpp := mem_batchesOf_subset hb p hpb
        obtain ⟨hpm, hpv⟩ := mem_filter_nonzero_split hq hpp
        exact hdist p hpm hpv hpos.symm

/-- Witness for claim C9: dropping the leading zero-volume pair of a concrete
two-pair transfer leaves records, volumes and compositions as in the one-pair
call. -/
theorem zero_volume_pair_dropped_witness :
    ((⟨0, 0, 0, 0, 0⟩ : TPair).vol = 0 ∧
      resOk (transfer srcS dstS ([] ++ (⟨0, 0, 0, 0, 0⟩ : TPair) :: [⟨1, 0, 1, 0, 500⟩])
        950 1 "x") = true) ∧
    transfer srcS dstS ([] ++ (⟨0, 0, 0, 0, 0⟩ : TPair) :: [⟨1, 0, 1, 0, 500⟩]) 950 1 "x"
      = transfer srcS dstS ([] ++ [⟨1, 0, 1, 0, 500⟩]) 950 1 "x" ∧
    srcVolAt (transfer srcS dstS ([] ++ (⟨0, 0, 0, 0, 0⟩ : TPair) :: [⟨1, 0, 1, 0, 500⟩])
        950 1 "x") (srcS.physRowOf 0) 0
      = some (srcS.vols (srcS.physRowOf 0) 0) ∧
    dstVolAt (transfer srcS dstS ([] ++ (⟨0, 0, 0, 0, 0⟩ : TPair) :: [⟨1, 0, 1, 0, 500⟩])
        950 1 "x") (dstS.physRowOf 0) 0
      = some (dstS.vols (dstS.physRowOf 0) 0) ∧
    (∀ nm v, Rec.asp nm (wellPosition srcS 0 0) v
      ∉ recsOf (transfer srcS dstS
          ([] ++ (⟨0, 0, 0, 0, 0⟩ : TPair) :: [⟨1, 0, 1, 0, 500⟩]) 950 1 "x")) ∧
    (∀ nm v, Rec.disp nm (wellPosition dstS 0 0) v
      ∉ recsOf (transfer srcS dstS
          ([] ++ (⟨0, 0, 0, 0, 0⟩ : TPair) :: [⟨1, 0, 1, 0, 500⟩]) 950 1 "x")) := by
  have h := zero_volume_pair_dropped srcS dstS [] [⟨1, 0, 1, 0, 500⟩] ⟨0, 0, 0, 0, 0⟩
    950 1 "x" (by with_unfolding_all decide)
  have hok : resOk (transfer srcS dstS
      ([] ++ (⟨0, 0, 0, 0, 0⟩ : TPair) :: [⟨1, 0, 1, 0, 500⟩]) 950 1 "x") = true := by
    with_unfolding_all decide
  refine ⟨⟨by with_unfolding_all decide, hok⟩, h.1, ?_, ?_, ?_, ?_⟩
  · exact (h.2.1 hok (by with_unfolding_all decide)).1
  · exact (h.2.2.1 hok (by with_unfolding_all decide)).1
  · exact h.2.2.2.1 hok (by with_unfolding_all decide)
  · exact h.2.2.2.2 hok (by with_unfolding_all decide)

/-- Witness for claim C2: mixing 500 of water with 500 of glucose gives
fractions 1/2 and 1/2; adding -500 empties the composition; removing 500
leaves every fraction unchanged. -/
theorem composition_mixer_spec_witness :
    (resOk (mixW.addOne 0 0 500 cinW) = true ∧
      resOk (mixW.removeOne 0 0 500) = true ∧
      resOk (mixW.addOne 0 0 (-500) cinW) = true) ∧
    okCompAt (mixW.addOne 0 0 500 cinW) "water" (mixW.physRowOf 0) 0 = some (1 / 2) ∧
    okCompAt (mixW.addOne 0 0 500 cinW) "glucose" (mixW.physRowOf 0) 0 = some (1 / 2) ∧
    okCompAt (mixW.addOne 0 0 (-500) cinW) "water" (mixW.physRowOf 0) 0 = some 0 ∧
    (∀ r' c', okCompAt (mixW.removeOne 0 0 500) "water" r' c'
      = some (mixW.comp "water" r' c')) := by
  refine ⟨⟨by with_unfolding_all decide, by with_unfolding_all decide,
    by with_unfolding_all decide⟩, ?_, ?_, ?_, ?_⟩
  · rw [(composition_mixer_spec mixW 0 0 500 cinW "water").1
      (by with_unfolding_all decide)]
    with_unfolding_all decide
  · rw [(composition_mixer_spec mixW 0 0 500 cinW "glucose").1
      (by with_unfolding_all decide)]
    with_unfolding_all decide
  · rw [(composition_mixer_spec mixW 0 0 (-500) cinW "water").1
      (by with_unfolding_all decide)]
    with_unfolding_all decide
  · exact (composition_mixer_spec mixW 0 0 500 cinW "water").2
      (by with_unfolding_all decide)

lemma encodeTips_loop_testBit (l : List Nat) (acc b : Nat) :
    (l.foldl (fun m i => m ||| 2 ^ (i - 1)) acc).testBit b
      = (acc.testBit b || l.any (fun i => decide (b = i - 1))) := by
  induction l generalizing acc with
  | nil => simp
  | cons i rest ih =>
    simp only [List.foldl_cons, List.any_cons]
    rw [ih, Nat.testBit_or, Nat.testBit_two_pow]
    by_cases h : b = i - 1
    · subst h
      simp
    · have h2 : ¬ (i - 1 = b) := fun hh => h hh.symm
      simp [h, h2, Bool.or_assoc]

lemma encodeTips_testBit (l : List Nat) (b : Nat) :
    (encodeTips l).testBit b = l.any (fun i => decide (b = i - 1)) := by
  rw [encodeTips, encodeTips_loop_testBit]
  simp

/-- Claim C3: for a transfer pair whose (integral) volume V exceeds the step
cap S, the planner emits exactly ceil(V / S) steps, every step volume is an
integer, every step volume is at most S, and the step volumes sum to exactly
V. -/
theorem split_steps_exact (m S : Nat) (hS : 1 ≤ S) (hm : S < m) :
    (partitionVolume (m : ℚ) S).length = (⌈(m : ℚ) / (S : ℚ)⌉).toNat ∧
    (∀ x ∈ partitionVolume (m : ℚ) S, (∃ z : ℤ, x = (z : ℚ)) ∧ x ≤ (S : ℚ)) ∧
    (partitionVolume (m : ℚ) S).sum = (m : ℚ) := by
  have hS0 : (0 : ℚ) < (S : ℚ) := by exact_mod_cast hS
  have hVS : ¬ ((m : ℚ) ≤ (S : ℚ)) := by
    push_neg
    exact_mod_cast hm
  have hq1 : (1 : ℚ) < (m : ℚ) / (S : ℚ) := by
    rw [lt_div_iff₀ hS0]
    simpa using (by exact_mod_cast hm : (S : ℚ) < (m : ℚ))
  set n0 : ℤ := ⌈(m : ℚ) / (S : ℚ)⌉ with hn0def
  have hn02 : 2 ≤ n0 := by
    have h1 : (1 : ℤ) < n0 := by
      rw [hn0def, Int.lt_ceil]
      exact_mod_cast hq1
    omega
  set n : Nat := n0.toNat with hndef
  have hn2 : 2 ≤ n := by omega
  have hncast : ((n : ℕ) : ℚ) = ((n0 : ℤ) : ℚ) := by
    have h1 : ((n : ℕ) : ℤ) = n0 := Int.toNat_of_nonneg (by omega)
    exact_mod_cast h1
  have hnpos : (0 : ℚ) < (n : ℚ) := by
    have h1 : 0 < n := by omega
    exact_mod_cast h1
  set step0 : ℤ := ⌈(m : ℚ) / (n : ℚ)⌉ with hstepdef
  have hVle : (m : ℚ) ≤ (n : ℚ) * (step0 : ℚ) := by
    have h1 : (m : ℚ) / (n : ℚ) ≤ (step0 : ℚ) := Int.le_ceil _
    rw [div_le_iff₀ hnpos] at h1
    linarith
  have hVnS : (m : ℚ) ≤ (n : ℚ) * (S : ℚ) := by
    have h1 : (m : ℚ) / (S : ℚ) ≤ ((n0 : ℤ) : ℚ) := Int.le_ceil _
    rw [div_le_iff₀ hS0] at h1
    rw [hncast]
    linarith
  have hstepS : step0 ≤ (S : ℤ) := by
    rw [hstepdef, Int.ceil_le]
    push_cast
    rw [div_le_iff₀ hnpos]
    linarith
  have hstepSQ : ((step0 : ℤ) : ℚ) ≤ (S : ℚ) := by exact_mod_cast hstepS
  have hcast1 : (((n - 1 : ℕ)) : ℚ) = (n : ℚ) - 1 := by
    have h1 : 1 ≤ n := by omega
    push_cast [h1]
    ring
  have hunf : partitionVolume (m : ℚ) S =
      List.replicate (n - 1) ((step0 : ℤ) : ℚ)
        ++ [(m : ℚ) - ((n - 1 : ℕ) : ℚ) * ((step0 : ℤ) : ℚ)] := by
    rw [partitionVolume, if_neg hVS]
  rw [hunf]
  refine ⟨?_, ?_, ?_⟩
  · simp only [List.length_append, List.length_replicate, List.length_singleton]
    omega
  · intro x hx
    rcases List.mem_append.mp hx with hx | hx
    · rcases List.eq_of_mem_replicate hx with rfl
      exact ⟨⟨step0, rfl⟩, hstepSQ⟩
    · rcases List.mem_singleton.mp hx with rfl
      constructor
      · refine ⟨(m : ℤ) - ((n - 1 : ℕ) : ℤ) * step0, ?_⟩
        push_cast
        ring
      · rw [hcast1]
        nlinarith [hstepSQ]
  · rw [List.sum_append, List.sum_replicate, List.sum_singleton, nsmul_eq_mul]
    ring

/-- Witness for claim C3 at the notebook instance V = 2500, S = 950: three
steps summing to exactly 2500 (the emitted steps are 834, 834, 832). -/
theorem split_steps_exact_witness :
    (1 ≤ 950 ∧ 950 < 2500) ∧
    ((partitionVolume ((2500 : ℕ) : ℚ) 950).sum = ((2500 : ℕ) : ℚ) ∧
     (partitionVolume ((2500 : ℕ) : ℚ) 950).length = 3) := by
  refine ⟨⟨by decide, by decide⟩, ?_⟩
  have h := split_steps_exact 2500 950 (by decide) (by decide)
  refine ⟨h.2.2, ?_⟩
  rw [h.1]
  with_unfolding_all decide

/-- Claim C4: decode(encode T) recovers every nonempty set T of valid tip
indices in [1, N], where encode is the bitwise OR of 2^(i-1) over the supplied
indices and is independent of the order in which they are supplied. -/
theorem tip_mask_roundtrip (N : Nat) (l1 l2 : List Nat)
    (_hne : l1 ≠ []) (hval : ∀ i ∈ l1, 1 ≤ i ∧ i ≤ N) (hperm : l1.Perm l2) :
    decodeTips N (encodeTips l1) = l1.toFinset ∧ encodeTips l1 = encodeTips l2 := by
  constructor
  · ext j
    simp only [decodeTips, Finset.mem_filter, Finset.mem_image, Finset.mem_range,
      List.mem_toFinset]
    rw [encodeTips_testBit]
    constructor
    · rintro ⟨⟨i0, hi0, rfl⟩, hbit⟩
      rcases List.any_eq_true.mp hbit with ⟨i, hi, hdec⟩
      have hb : i0 + 1 - 1 = i - 1 := of_decide_eq_true hdec
      have hi1 : 1 ≤ i := (hval i hi).1
      have h1 : i0 + 1 = i := by omega
      rwa [h1]
    · intro hj
      have hj1 : 1 ≤ j := (hval j hj).1
      have hjN : j ≤ N := (hval j hj).2
      refine ⟨⟨j - 1, by omega, by omega⟩, ?_⟩
      rw [List.any_eq_true]
      exact ⟨j, hj, by simp⟩
  · apply Nat.eq_of_testBit_eq
    intro b
    rw [encodeTips_testBit, encodeTips_testBit]
    have h1 : ∀ p : Nat → Bool, l1.any p = l2.any p := by
      intro p
      rw [Bool.eq_iff_iff, List.any_eq_true, List.any_eq_true]
      constructor
      · rintro ⟨x, hx, hpx⟩
        exact ⟨x, hperm.mem_iff.mp hx, hpx⟩
      · rintro ⟨x, hx, hpx⟩
        exact ⟨x, hperm.mem_iff.mpr hx, hpx⟩
    exact h1 _

/-- Witness for claim C4: tips {1, 4} encode to mask 9 and decode back to
{1, 4}; single tips 2, 3, 4 encode to masks 2, 4, 8. -/
theorem tip_mask_roundtrip_witness :
    (([1, 4] : List Nat) ≠ [] ∧ (∀ i ∈ ([1, 4] : List Nat), 1 ≤ i ∧ i ≤ 8) ∧
      ([1, 4] : List Nat).Perm [4, 1]) ∧
    (decodeTips 8 (encodeTips [1, 4]) = ([1, 4] : List Nat).toFinset ∧
      encodeTips [1, 4] = encodeTips [4, 1]) ∧
    encodeTips [1, 4] = 9 ∧ encodeTips [2] = 2 ∧ encodeTips [3] = 4 ∧
    encodeTips [4] = 8 := by
  refine ⟨⟨by decide, by decide, by decide⟩, ?_, by decide, by decide, by decide,
    by decide⟩
  exact tip_mask_roundtrip 8 [1, 4] [4, 1] (by decide) (by decide) (by decide)

end Robotools
